import Mathlib

/-!
Verification of the zephyr CI runner core against its specification.

The development shallowly embeds the relevant source functions:

* `packages/core/src/scheduler/dag.ts` — DAG scheduler (`buildDag`,
  `validateDag`, `markJobRunning`, `markJobCompleted`, `cancelAllJobs`,
  `getTopologicalOrder`, …).  A JS `Map<string, DagJob>` keyed by `job.id`
  (where the value also stores the id) is embedded as a `List DagJob` in
  insertion order; `Map.get` is `List.find?` on the id and in-place status
  mutation is a `List.map` that rewrites the entry with the given id.
* `agent/src/index.ts` — in-VM agent (`executeCommand`, `executeJob`).
  Process execution is abstracted by an oracle giving each step's exit code,
  and the timeout timer by a flag saying whether it fired before the
  process exited.
* `packages/server/src/webhooks/github.ts` — signature verification and
  trigger matching.  Strings are embedded as `List Char`; the regex built
  by `matchesGlob` (`*` → `.*`, `?` → `.`, all else escaped, anchored) is
  embedded as a direct glob matcher with exactly that semantics.
* `packages/storage/src/db.ts` / `secrets.ts` — the log table of the
  SQLite store (autoincrement id column) and `maskSecrets`.
* `packages/vm/src/network/tap.ts` — `allocateNetwork`'s deterministic
  /30 slot arithmetic.
-/

set_option maxHeartbeats 1600000

namespace Zephyr

/-! ## DAG scheduler data model (packages/core/src/scheduler/dag.ts) -/

/-- Job status enum of the DAG scheduler. -/
inductive Status
  | pending | ready | running | success | failure | skipped | cancelled
  deriving DecidableEq, Repr

/-- `DagNode` input record: id, name and dependency list. -/
structure DagNode where
  id : String
  name : String
  dependsOn : List String
  deriving DecidableEq, Repr

/-- `DagJob` — a `DagNode` together with its current status. -/
structure DagJob where
  id : String
  name : String
  dependsOn : List String
  status : Status
  deriving DecidableEq, Repr

/-- The `Map<string, DagJob>` of the source, as the list of its values in
insertion order (the map is keyed by `job.id`, which the value stores too). -/
abbrev Dag := List DagJob

/-- `dag.get(jobId)` — first (and, for maps built by `buildDag`, only)
entry with the given id. -/
def dagFind (dag : Dag) (jobId : String) : Option DagJob :=
  dag.find? (fun j => j.id == jobId)

/-- The key set of the map, as a list. -/
def dagIds (dag : Dag) : List String := dag.map (fun j => j.id)

/-- Status of the job with a given id, if present. -/
def statusOf (dag : Dag) (jobId : String) : Option Status :=
  (dagFind dag jobId).map (fun j => j.status)

/-- Dependency list of the job with a given id, if present. -/
def depsOf (dag : Dag) (jobId : String) : Option (List String) :=
  (dagFind dag jobId).map (fun j => j.dependsOn)

/-- `Map.set(job.id, v)`: replace the value at an existing key in place,
otherwise append a new entry. -/
def mapSet (dag : Dag) (job : DagJob) : Dag :=
  if dag.any (fun j => j.id == job.id) then
    dag.map (fun j => if j.id == job.id then job else j)
  else dag ++ [job]

/-- First loop of `buildDag`: insert every input node with status
`pending`. -/
def insertJobs (jobs : List DagNode) : Dag :=
  jobs.foldl (fun dag n => mapSet dag ⟨n.id, n.name, n.dependsOn, Status.pending⟩) []

/-- Missing-dependency check of `validateDag`: the first dependency of one
of the jobs that is not a key of the map, if any. -/
def findMissingDep (dag : Dag) : List DagJob → Option (DagJob × String)
  | [] => none
  | job :: rest =>
    match job.dependsOn.find? (fun dep => !(dag.any (fun j => j.id == dep))) with
    | some dep => some (job, dep)
    | none => findMissingDep dag rest

/-- Number of keys of `dag` not yet in `visited`; the termination measure
of the depth-first searches below. -/
def unvisitedCount (dag : Dag) (visited : List String) : Nat :=
  ((dagIds dag).filter (fun i => decide (i ∉ visited))).length

theorem unvisitedCount_mono (dag : Dag) {v v' : List String} (h : v ⊆ v') :
    unvisitedCount dag v' ≤ unvisitedCount dag v := by
  unfold unvisitedCount
  apply List.Sublist.length_le
  apply List.monotone_filter_right
  intro x hx
  simp only [decide_eq_true_eq] at *
  intro hmem
  exact hx (h hmem)

theorem unvisitedCount_cons_lt (dag : Dag) {v : List String} {x : String}
    (hx : x ∈ dagIds dag) (hnv : x ∉ v) :
    unvisitedCount dag (x :: v) < unvisitedCount dag v := by
  unfold unvisitedCount
  have hsub : ((dagIds dag).filter (fun i => decide (i ∉ x :: v))).Sublist
      ((dagIds dag).filter (fun i => decide (i ∉ v))) := by
    apply List.monotone_filter_right
    intro a ha
    simp only [decide_eq_true_eq, List.mem_cons, not_or] at *
    exact ha.2
  apply Nat.lt_of_le_of_ne hsub.length_le
  intro heq
  have hperm := hsub.eq_of_length heq
  have hxin : x ∈ (dagIds dag).filter (fun i => decide (i ∉ v)) := by
    simp only [List.mem_filter, decide_eq_true_eq]
    exact ⟨hx, hnv⟩
  rw [← hperm] at hxin
  simp only [List.mem_filter, decide_eq_true_eq, List.mem_cons, not_or] at hxin
  exact hxin.2.1 trivial

theorem dagFind_some_id {dag : Dag} {jobId : String} {job : DagJob}
    (h : dagFind dag jobId = some job) : job.id = jobId := by
  have := List.find?_some h
  simpa using this

theorem dagFind_some_mem {dag : Dag} {jobId : String} {job : DagJob}
    (h : dagFind dag jobId = some job) : job ∈ dag :=
  List.mem_of_find?_eq_some h

theorem dagFind_some_mem_ids {dag : Dag} {jobId : String} {job : DagJob}
    (h : dagFind dag jobId = some job) : jobId ∈ dagIds dag := by
  have hid := dagFind_some_id h
  have hmem := dagFind_some_mem h
  subst hid
  exact List.mem_map_of_mem (fun j => j.id) hmem

theorem dagFind_eq_none {dag : Dag} {jobId : String} :
    dagFind dag jobId = none ↔ jobId ∉ dagIds dag := by
  unfold dagFind dagIds
  rw [List.find?_eq_none]
  constructor
  · intro h hmem
    rcases List.mem_map.mp hmem with ⟨j, hj, hjid⟩
    exact h j hj (by simpa using hjid)
  · intro h j hj hid
    simp only [beq_iff_eq] at hid
    exact h (List.mem_map.mpr ⟨j, hj, hid⟩)

theorem dagFind_isSome_iff {dag : Dag} {jobId : String} :
    (dagFind dag jobId).isSome = true ↔ jobId ∈ dagIds dag := by
  rcases h : dagFind dag jobId with _ | job
  · simp [dagFind_eq_none.mp h]
  · simp [dagFind_some_mem_ids h]

/-! ### Cycle detection (`validateDag`'s DFS with a recursion stack)

The source's `hasCycle(jobId)` mutates an outer `visited` set and
`recursionStack`; both are threaded explicitly here.  The returned set is
bundled with the fact that it only grows, which the termination measure
needs. -/

mutual

/-- One call `hasCycle(jobId)` of `validateDag`: true if a node on the
current recursion stack is reached.  Returns the grown `visited` set.
(`dag.get(jobId)!` cannot fail in the source because roots are keys and
missing dependencies were rejected first; the `none` branch is dead code.) -/
def hasCycleAux (dag : Dag) (visited stack : List String) (jobId : String) :
    Bool × { v : List String // visited ⊆ v } :=
  if jobId ∈ stack then (true, ⟨visited, List.Subset.refl visited⟩)
  else if hv : jobId ∈ visited then (false, ⟨visited, List.Subset.refl visited⟩)
  else
    match hfind : dagFind dag jobId with
    | none => (false, ⟨visited, List.Subset.refl visited⟩)
    | some job =>
      match hasCycleDeps dag (jobId :: visited) (jobId :: stack) job.dependsOn with
      | (b, ⟨v', hsub⟩) =>
        (b, ⟨v', fun _ hx => hsub (List.mem_cons_of_mem _ hx)⟩)
termination_by (unvisitedCount dag visited, 0)
decreasing_by
  apply Prod.Lex.left
  apply unvisitedCount_cons_lt
  · exact dagFind_some_mem_ids hfind
  · exact hv

/-- The `for (const dep of job.dependsOn)` loop inside `hasCycle`. -/
def hasCycleDeps (dag : Dag) (visited stack : List String) (deps : List String) :
    Bool × { v : List String // visited ⊆ v } :=
  match deps with
  | [] => (false, ⟨visited, List.Subset.refl visited⟩)
  | dep :: rest =>
    match hasCycleAux dag visited stack dep with
    | (true, v') => (true, v')
    | (false, ⟨v', hsub⟩) =>
      match hasCycleDeps dag v' stack rest with
      | (b, ⟨v'', hsub'⟩) => (b, ⟨v'', List.Subset.trans hsub hsub'⟩)
termination_by (unvisitedCount dag visited, deps.length + 1)
decreasing_by
  · apply Prod.Lex.right
    simp
  · rcases Nat.lt_or_ge (unvisitedCount dag v') (unvisitedCount dag visited) with h | h
    · exact Prod.Lex.left _ _ h
    · have heq : unvisitedCount dag v' = unvisitedCount dag visited :=
        Nat.le_antisymm (unvisitedCount_mono dag hsub) h
      rw [heq]
      apply Prod.Lex.right
      simp

end

/-- The `for (const jobId of dag.keys())` loop of `validateDag`, threading
the shared `visited` set. -/
def cycleCheckAll (dag : Dag) (visited : List String) : List String → Bool
  | [] => false
  | k :: ks =>
    match hasCycleAux dag visited [] k with
    | (true, _) => true
    | (false, ⟨v', _⟩) => cycleCheckAll dag v' ks

/-- `validateDag`: reject a missing dependency, then reject a cycle. -/
def validateDag (dag : Dag) : Except String Unit :=
  match findMissingDep dag dag with
  | some (job, dep) =>
    Except.error ("Job '" ++ job.name ++ "' depends on unknown job '" ++ dep ++ "'")
  | none =>
    if cycleCheckAll dag [] (dagIds dag) then
      Except.error "Circular dependency detected in job graph"
    else Except.ok ()

/-- The final loop of `buildDag`: a job with no dependencies becomes
`ready`. -/
def readyMark (j : DagJob) : DagJob :=
  if j.dependsOn.isEmpty then { j with status := Status.ready } else j

/-- `buildDag`: insert all nodes as `pending`, validate, then mark the
nodes without dependencies `ready`. -/
def buildDag (jobs : List DagNode) : Except String Dag :=
  let dag := insertJobs jobs
  match validateDag dag with
  | Except.error e => Except.error e
  | Except.ok _ => Except.ok (dag.map readyMark)

/-! ### Status updates -/

/-- The per-entry rewrite of `setJobStatus`. -/
def setStatusFun (jobId : String) (st : Status) (j : DagJob) : DagJob :=
  if j.id == jobId then { j with status := st } else j

/-- In-place mutation `job.status = st` of the entry with the given id. -/
def setJobStatus (dag : Dag) (jobId : String) (st : Status) : Dag :=
  dag.map (setStatusFun jobId st)

/-- `markJobRunning`: only a `ready` job may start. -/
def markJobRunning (dag : Dag) (jobId : String) : Except String Dag :=
  match dagFind dag jobId with
  | none => Except.error ("Job not found: " ++ jobId)
  | some job =>
    if job.status = Status.ready then Except.ok (setJobStatus dag jobId Status.running)
    else Except.error ("Job '" ++ job.name ++ "' is not ready to run")

/-- `allDepsComplete` inside `markJobCompleted`: every dependency has
status `success` (a missing dependency entry compares unequal). -/
def allDepsSuccess (dag : Dag) (job : DagJob) : Bool :=
  job.dependsOn.all (fun depId => statusOf dag depId == some Status.success)

/-- One iteration of the promotion loop of `markJobCompleted`: promote the
job with id `jid` from `pending` to `ready` when all its dependencies are
`success`, recording it in the newly-ready list. -/
def promoteStep (acc : Dag × List String) (jid : String) : Dag × List String :=
  match dagFind acc.1 jid with
  | none => acc
  | some job =>
    if job.status = Status.pending ∧ allDepsSuccess acc.1 job then
      (setJobStatus acc.1 jid Status.ready, acc.2 ++ [jid])
    else acc

/-! ### `skipDependentJobs` (transitive dependents of a failed job) -/

mutual

/-- The loop body of `findDependents`: scan all jobs, adding each direct
dependent of `jobId` not yet collected and recursing from it. -/
def fdJobs (dag : Dag) (toSkip : List String) (jobId : String) (jobs : List DagJob)
    (hjobs : ∀ j ∈ jobs, j ∈ dag) : { t : List String // toSkip ⊆ t } :=
  match jobs with
  | [] => ⟨toSkip, List.Subset.refl toSkip⟩
  | job :: rest =>
    if hc : jobId ∈ job.dependsOn ∧ job.id ∉ toSkip then
      match fdFrom dag (job.id :: toSkip) job.id
          (List.mem_map_of_mem (fun j => j.id) (hjobs job (List.mem_cons_self job rest))) with
      | ⟨t', ht'⟩ =>
        match fdJobs dag t' jobId rest (fun j hj => hjobs j (List.mem_cons_of_mem job hj)) with
        | ⟨t'', ht''⟩ =>
          ⟨t'', fun x hx => ht'' (ht' (List.mem_cons_of_mem _ hx))⟩
    else fdJobs dag toSkip jobId rest (fun j hj => hjobs j (List.mem_cons_of_mem job hj))
termination_by (unvisitedCount dag toSkip, jobs.length)
decreasing_by
  · apply Prod.Lex.left
    exact unvisitedCount_cons_lt dag
      (List.mem_map_of_mem (fun j => j.id) (hjobs job (List.mem_cons_self job rest))) hc.2
  · rcases Nat.lt_or_ge (unvisitedCount dag t') (unvisitedCount dag toSkip) with h | h
    · exact Prod.Lex.left _ _ h
    · have hsubt : (job.id :: toSkip) ⊆ t' := ht'
      have hle : unvisitedCount dag t' ≤ unvisitedCount dag (job.id :: toSkip) :=
        unvisitedCount_mono dag hsubt
      have hlt : unvisitedCount dag (job.id :: toSkip) < unvisitedCount dag toSkip :=
        unvisitedCount_cons_lt dag
          (List.mem_map_of_mem (fun j => j.id) (hjobs job (List.mem_cons_self job rest))) hc.2
      exact Prod.Lex.left _ _ (Nat.lt_of_le_of_lt hle hlt)
  · apply Prod.Lex.right
    simp

/-- `findDependents(jobId)`: one full scan of the map.  `hmem` is the ghost
fact that the scanned node is a key, which the termination measure needs. -/
def fdFrom (dag : Dag) (toSkip : List String) (jobId : String)
    (hmem : jobId ∈ dagIds dag) : { t : List String // toSkip ⊆ t } :=
  fdJobs dag toSkip jobId dag (fun _ hj => hj)
termination_by (unvisitedCount dag toSkip, dag.length + 1)
decreasing_by
  apply Prod.Lex.right
  simp

end

/-- The final marking loop of `skipDependentJobs`: a collected dependent
that is still `pending` or `ready` becomes `skipped`. -/
def skipMark (toSkip : List String) (j : DagJob) : DagJob :=
  if j.id ∈ toSkip ∧ (j.status = Status.pending ∨ j.status = Status.ready) then
    { j with status := Status.skipped }
  else j

/-- `skipDependentJobs`: collect all transitive dependents of the failed
job, then mark the `pending`/`ready` ones `skipped`.  When the failed id is
not a key the dependent scan finds nothing (no job validated against it),
matching the source where this cannot arise. -/
def skipDependentJobs (dag : Dag) (failedJobId : String) : Dag :=
  if hmem : failedJobId ∈ dagIds dag then
    dag.map (skipMark (fdFrom dag [] failedJobId hmem).1)
  else dag

/-- `markJobCompleted`: set the final status, then on success run the
promotion loop over the values (returning the newly-ready ids), on failure
skip all transitive dependents. -/
def markJobCompleted (dag : Dag) (jobId : String) (success : Bool) :
    Except String (Dag × List String) :=
  match dagFind dag jobId with
  | none => Except.error ("Job not found: " ++ jobId)
  | some _ =>
    let d1 := setJobStatus dag jobId (if success then Status.success else Status.failure)
    if success then
      Except.ok ((dagIds d1).foldl promoteStep (d1, []))
    else
      Except.ok (skipDependentJobs d1 jobId, [])

/-- The per-entry rewrite of `cancelAllJobs`. -/
def cancelMark (j : DagJob) : DagJob :=
  if j.status = Status.pending ∨ j.status = Status.ready then
    { j with status := Status.cancelled }
  else j

/-- `cancelAllJobs`: every `pending` or `ready` job becomes `cancelled`. -/
def cancelAllJobs (dag : Dag) : Dag :=
  dag.map cancelMark

/-- `isDagComplete`: no job is `pending`, `ready` or `running`. -/
def isDagComplete (dag : Dag) : Bool :=
  dag.all (fun j =>
    !(j.status = Status.pending ∨ j.status = Status.ready ∨ j.status = Status.running))

/-! ### Topological order -/

mutual

/-- `visit(jobId)` of `getTopologicalOrder`: post-order DFS appending each
node after its dependencies.  (As in `hasCycleAux`, the missing-key branch
is dead code in the source: there `dag.get(jobId)!` is always defined.) -/
def visitTopo (dag : Dag) (visited order : List String) (jobId : String) :
    { p : List String × List String // visited ⊆ p.1 } :=
  if hv : jobId ∈ visited then ⟨(visited, order), List.Subset.refl visited⟩
  else
    match hfind : dagFind dag jobId with
    | none =>
      ⟨(jobId :: visited, order ++ [jobId]), fun _ hx => List.mem_cons_of_mem _ hx⟩
    | some job =>
      match visitTopoDeps dag (jobId :: visited) order job.dependsOn with
      | ⟨(v', o'), hsub⟩ =>
        ⟨(v', o' ++ [jobId]), fun _ hx => hsub (List.mem_cons_of_mem _ hx)⟩
termination_by (unvisitedCount dag visited, 0)
decreasing_by
  apply Prod.Lex.left
  apply unvisitedCount_cons_lt
  · exact dagFind_some_mem_ids hfind
  · exact hv

/-- The `for (const dep of job.dependsOn) visit(dep)` loop. -/
def visitTopoDeps (dag : Dag) (visited order : List String) (deps : List String) :
    { p : List String × List String // visited ⊆ p.1 } :=
  match deps with
  | [] => ⟨(visited, order), List.Subset.refl visited⟩
  | dep :: rest =>
    match visitTopo dag visited order dep with
    | ⟨(v', o'), hsub⟩ =>
      match visitTopoDeps dag v' o' rest with
      | ⟨p, hsub'⟩ => ⟨p, List.Subset.trans hsub hsub'⟩
termination_by (unvisitedCount dag visited, deps.length + 1)
decreasing_by
  · apply Prod.Lex.right
    simp
  · rcases Nat.lt_or_ge (unvisitedCount dag v') (unvisitedCount dag visited) with h | h
    · exact Prod.Lex.left _ _ h
    · have heq : unvisitedCount dag v' = unvisitedCount dag visited :=
        Nat.le_antisymm (unvisitedCount_mono dag hsub) h
      rw [heq]
      apply Prod.Lex.right
      simp

end

/-- The `for (const jobId of dag.keys()) visit(jobId)` loop. -/
def topoVisitAll (dag : Dag) (visited order : List String) : List String → List String × List String
  | [] => (visited, order)
  | k :: ks =>
    match visitTopo dag visited order k with
    | ⟨(v', o'), _⟩ => topoVisitAll dag v' o' ks

/-- `getTopologicalOrder`. -/
def getTopologicalOrder (dag : Dag) : List String :=
  (topoVisitAll dag [] [] (dagIds dag)).2

/-! ### The dependency graph of a DAG -/

/-- Edge of the dependency graph: `edge dag a b` when the job stored at key
`a` lists `b` among its dependencies. -/
def edge (dag : Dag) (a b : String) : Prop :=
  ∃ job, dagFind dag a = some job ∧ b ∈ job.dependsOn

/-- A dependency cycle: some node reachable from itself along `edge`. -/
def HasCycle (dag : Dag) : Prop :=
  ∃ x, Relation.TransGen (edge dag) x x

/-- Every listed dependency is a key of the map. -/
def DepsClosed (dag : Dag) : Prop :=
  ∀ job ∈ dag, ∀ d ∈ job.dependsOn, d ∈ dagIds dag

/-- The keys of the map are pairwise distinct (true of every map, hence of
every `Dag` built by `buildDag`). -/
def NodupIds (dag : Dag) : Prop := (dagIds dag).Nodup

/-! ### Correctness of the cycle-detecting DFS -/

/-- No cycle of the dependency graph is reachable from `b`. -/
def NoCycleReach (dag : Dag) (b : String) : Prop :=
  ¬ ∃ x, Relation.ReflTransGen (edge dag) b x ∧ Relation.TransGen (edge dag) x x

/-- Every fully processed (visited but off-stack) node cannot reach a
cycle. -/
def SafeSet (dag : Dag) (v s : List String) : Prop :=
  ∀ b ∈ v, b ∉ s → NoCycleReach dag b

theorem hasCycleAux_unfold_stack {dag : Dag} {v s : List String} {j : String}
    (h : j ∈ s) :
    hasCycleAux dag v s j = (true, ⟨v, List.Subset.refl v⟩) := by
  rw [hasCycleAux]
  simp [h]

theorem hasCycleAux_unfold_visited {dag : Dag} {v s : List String} {j : String}
    (h1 : j ∉ s) (h2 : j ∈ v) :
    hasCycleAux dag v s j = (false, ⟨v, List.Subset.refl v⟩) := by
  rw [hasCycleAux]
  simp [h1, h2]

theorem hasCycleAux_unfold_none {dag : Dag} {v s : List String} {j : String}
    (h1 : j ∉ s) (h2 : j ∉ v) (hfind : dagFind dag j = none) :
    hasCycleAux dag v s j = (false, ⟨v, List.Subset.refl v⟩) := by
  rw [hasCycleAux]
  simp only [if_neg h1, dif_neg h2]
  split
  · rfl
  · rename_i job2 heq
    rw [hfind] at heq
    cases heq

theorem hasCycleAux_unfold_rec {dag : Dag} {v s : List String} {j : String} {job : DagJob}
    (h1 : j ∉ s) (h2 : j ∉ v) (hfind : dagFind dag j = some job) :
    (hasCycleAux dag v s j).1 = (hasCycleDeps dag (j :: v) (j :: s) job.dependsOn).1 ∧
      (hasCycleAux dag v s j).2.1 = (hasCycleDeps dag (j :: v) (j :: s) job.dependsOn).2.1 := by
  rw [hasCycleAux]
  simp only [if_neg h1, dif_neg h2]
  split
  · rename_i heq
    rw [hfind] at heq
    cases heq
  · rename_i job2 heq
    rw [hfind] at heq
    injection heq with h
    subst h
    rcases hd : hasCycleDeps dag (j :: v) (j :: s) job.dependsOn with ⟨b, v', hsub⟩
    simp

theorem hasCycleDeps_unfold_nil {dag : Dag} {v s : List String} :
    hasCycleDeps dag v s [] = (false, ⟨v, List.Subset.refl v⟩) := by
  rw [hasCycleDeps]

theorem hasCycleDeps_unfold_cons_true {dag : Dag} {v s : List String} {dep : String}
    {rest : List String} (h : (hasCycleAux dag v s dep).1 = true) :
    (hasCycleDeps dag v s (dep :: rest)).1 = true := by
  rw [hasCycleDeps]
  rcases ha : hasCycleAux dag v s dep with ⟨b, v', hsub⟩
  rw [ha] at h
  simp only at h
  subst h
  simp

theorem hasCycleDeps_unfold_cons_false {dag : Dag} {v s : List String} {dep : String}
    {rest : List String} (h : (hasCycleAux dag v s dep).1 = false) :
    (hasCycleDeps dag v s (dep :: rest)).1
        = (hasCycleDeps dag (hasCycleAux dag v s dep).2.1 s rest).1 ∧
      (hasCycleDeps dag v s (dep :: rest)).2.1
        = (hasCycleDeps dag (hasCycleAux dag v s dep).2.1 s rest).2.1 := by
  rw [hasCycleDeps]
  rcases ha : hasCycleAux dag v s dep with ⟨b, v', hsub⟩
  rw [ha] at h
  simp only at h
  subst h
  rcases hd : hasCycleDeps dag v' s rest with ⟨b2, v'', hsub'⟩
  simp [hd]

theorem hasCycleAux_false_not_stack {dag : Dag} {v s : List String} {j : String}
    (h : (hasCycleAux dag v s j).1 = false) : j ∉ s := by
  intro hj
  rw [hasCycleAux_unfold_stack hj] at h
  cases h

/-- If the DFS reports a cycle while every stack node reaches the current
node, the dependency graph has a cycle. -/
theorem hasCycleAux_true_hasCycle (dag : Dag) (visited stack : List String) (jobId : String) :
    (∀ g ∈ stack, Relation.TransGen (edge dag) g jobId) →
    (hasCycleAux dag visited stack jobId).1 = true → HasCycle dag := by
  refine hasCycleAux.induct dag
    (fun v s j => (∀ g ∈ s, Relation.TransGen (edge dag) g j) →
      (hasCycleAux dag v s j).1 = true → HasCycle dag)
    (fun v s ds => (∀ g ∈ s, ∀ d ∈ ds, Relation.TransGen (edge dag) g d) →
      (hasCycleDeps dag v s ds).1 = true → HasCycle dag)
    ?_ ?_ ?_ ?_ ?_ ?_ ?_ visited stack jobId
  · intro v s j hj hstack _
    exact ⟨j, hstack j hj⟩
  · intro v s j h1 h2 _ htrue
    rw [hasCycleAux_unfold_visited h1 h2] at htrue
    cases htrue
  · intro v s j h1 h2 hfind _ htrue
    rw [hasCycleAux_unfold_none h1 h2 hfind] at htrue
    cases htrue
  · intro v s j h1 h2 job hfind b v' hsub heq ih2 hstack htrue
    rw [(hasCycleAux_unfold_rec h1 h2 hfind).1] at htrue
    refine ih2 ?_ htrue
    intro g hg d hd
    have hedge : edge dag j d := ⟨job, hfind, hd⟩
    rcases List.mem_cons.mp hg with hgj | hgs
    · subst hgj
      exact Relation.TransGen.single hedge
    · exact Relation.TransGen.tail (hstack g hgs) hedge
  · intro v s _ htrue
    rw [hasCycleDeps_unfold_nil] at htrue
    cases htrue
  · intro v s dep rest v' heq ih1 hinv htrue
    refine ih1 (fun g hg => hinv g hg dep (List.mem_cons_self dep rest)) ?_
    rw [heq]
  · intro v s dep rest v' hsub heqAux b v'' hsub' heqDeps ih1 ih2 hinv htrue
    have hfalseAux : (hasCycleAux dag v s dep).1 = false := by rw [heqAux]
    rw [(hasCycleDeps_unfold_cons_false hfalseAux).1] at htrue
    refine ih2 (fun g hg d hd => hinv g hg d (List.mem_cons_of_mem dep hd)) ?_
    have h21 : (hasCycleAux dag v s dep).2.1 = v' := by rw [heqAux]
    rw [h21] at htrue
    exact htrue

/-- If the DFS finishes a node without reporting a cycle, all fully
processed nodes stay unable to reach a cycle, and the node itself gets
fully processed. -/
theorem hasCycleAux_false_safe (dag : Dag) (visited stack : List String) (jobId : String) :
    SafeSet dag visited stack →
    (hasCycleAux dag visited stack jobId).1 = false →
      SafeSet dag (hasCycleAux dag visited stack jobId).2.1 stack ∧
      visited ⊆ (hasCycleAux dag visited stack jobId).2.1 ∧
      (jobId ∈ dagIds dag → jobId ∈ (hasCycleAux dag visited stack jobId).2.1) := by
  refine hasCycleAux.induct dag
    (fun v s j => SafeSet dag v s →
      (hasCycleAux dag v s j).1 = false →
        SafeSet dag (hasCycleAux dag v s j).2.1 s ∧
        v ⊆ (hasCycleAux dag v s j).2.1 ∧
        (j ∈ dagIds dag → j ∈ (hasCycleAux dag v s j).2.1))
    (fun v s ds => SafeSet dag v s →
      (hasCycleDeps dag v s ds).1 = false →
        SafeSet dag (hasCycleDeps dag v s ds).2.1 s ∧
        v ⊆ (hasCycleDeps dag v s ds).2.1 ∧
        (∀ d ∈ ds, d ∉ s ∧ (d ∈ dagIds dag → d ∈ (hasCycleDeps dag v s ds).2.1)))
    ?_ ?_ ?_ ?_ ?_ ?_ ?_ visited stack jobId
  · intro v s j hj _ hfalse
    rw [hasCycleAux_unfold_stack hj] at hfalse
    cases hfalse
  · intro v s j h1 h2 hsafe _
    rw [hasCycleAux_unfold_visited h1 h2]
    exact ⟨hsafe, List.Subset.refl v, fun _ => h2⟩
  · intro v s j h1 h2 hfind hsafe _
    rw [hasCycleAux_unfold_none h1 h2 hfind]
    refine ⟨hsafe, List.Subset.refl v, fun hmem => ?_⟩
    exact absurd (dagFind_eq_none.mp hfind) (by simp [hmem])
  · intro v s j h1 h2 job hfind b v' hsub heq ih2 hsafe hfalse
    have hrec := hasCycleAux_unfold_rec h1 h2 hfind
    rw [hrec.1] at hfalse
    have hsafe' : SafeSet dag (j :: v) (j :: s) := by
      intro x hx hxs
      rcases List.mem_cons.mp hx with hxj | hxv
      · exact absurd (List.mem_cons_self j s) (hxj ▸ hxs)
      · exact hsafe x hxv (fun hxs' => hxs (List.mem_cons_of_mem j hxs'))
    obtain ⟨hSafeV, hsubV, hdeps⟩ := ih2 hsafe' hfalse
    set V := (hasCycleDeps dag (j :: v) (j :: s) job.dependsOn).2.1 with hV
    rw [hrec.2]
    have hjV : j ∈ V := hsubV (List.mem_cons_self j v)
    refine ⟨?_, fun x hx => hsubV (List.mem_cons_of_mem j hx), fun _ => hjV⟩
    intro x hxV hxs
    by_cases hxj : x = j
    · subst hxj
      -- x = j: no cycle reachable from j once its dependencies are safe
      rintro ⟨y, hreach, hcyc⟩
      have hkey : ∃ c, edge dag x c ∧ Relation.ReflTransGen (edge dag) c y := by
        rcases (Relation.reflTransGen_iff_eq_or_transGen.mp hreach) with rfl | htg
        · obtain ⟨c, hc, hcy⟩ := (Relation.TransGen.head'_iff).mp hcyc
          exact ⟨c, hc, hcy⟩
        · obtain ⟨c, hc, hcy⟩ := (Relation.TransGen.head'_iff).mp htg
          exact ⟨c, hc, hcy⟩
      obtain ⟨c, hedge, hcy⟩ := hkey
      obtain ⟨job2, hfind2, hcdep⟩ := hedge
      rw [hfind] at hfind2
      injection hfind2 with hjob2
      subst hjob2
      obtain ⟨hcs, hcmem⟩ := hdeps c hcdep
      have hcids : c ∈ dagIds dag := by
        rcases hfc : dagFind dag c with _ | jc
        · exfalso
          rcases Relation.ReflTransGen.cases_head hcy with rfl | ⟨z, hz, _⟩
          · -- c = y; the cycle at y starts with an edge out of c
            obtain ⟨z, hz, _⟩ := (Relation.TransGen.head'_iff).mp hcyc
            obtain ⟨jc, hjc, _⟩ := hz
            rw [hfc] at hjc
            cases hjc
          · obtain ⟨jc, hjc, _⟩ := hz
            rw [hfc] at hjc
            cases hjc
        · exact dagFind_some_mem_ids hfc
      have hcV : c ∈ V := hcmem hcids
      exact hSafeV c hcV hcs ⟨y, hcy, hcyc⟩
    · refine hSafeV x hxV ?_
      intro hmem
      rcases List.mem_cons.mp hmem with h | h
      · exact hxj h
      · exact hxs h
  · intro v s hsafe _
    rw [hasCycleDeps_unfold_nil]
    exact ⟨hsafe, List.Subset.refl v, fun d hd => absurd hd (List.not_mem_nil d)⟩
  · intro v s dep rest v' heqAux ih1 hsafe hfalse
    have : (hasCycleDeps dag v s (dep :: rest)).1 = true :=
      hasCycleDeps_unfold_cons_true (by rw [heqAux])
    rw [this] at hfalse
    cases hfalse
  · intro v s dep rest v' hsub heqAux b v'' hsub' heqDeps ih1 ih2 hsafe hfalse
    have hfalseAux : (hasCycleAux dag v s dep).1 = false := by rw [heqAux]
    have hcons := @hasCycleDeps_unfold_cons_false dag v s dep rest hfalseAux
    have h21 : (hasCycleAux dag v s dep).2.1 = v' := by rw [heqAux]
    rw [h21] at hcons
    rw [hcons.1] at hfalse
    rw [hcons.2]
    obtain ⟨hSafe1, hsub1, hdep1⟩ := ih1 hsafe hfalseAux
    rw [h21] at hSafe1 hsub1 hdep1
    obtain ⟨hSafe2, hsub2, hdeps2⟩ := ih2 hSafe1 hfalse
    refine ⟨hSafe2, List.Subset.trans hsub1 hsub2, ?_⟩
    intro d hd
    rcases List.mem_cons.mp hd with rfl | hdr
    · exact ⟨hasCycleAux_false_not_stack hfalseAux,
        fun hids => hsub2 (hdep1 hids)⟩
    · exact hdeps2 d hdr

/-- If the whole key scan reports a cycle, the graph has one. -/
theorem cycleCheckAll_true_hasCycle (dag : Dag) :
    ∀ (ks : List String) (v : List String),
      cycleCheckAll dag v ks = true → HasCycle dag := by
  intro ks
  induction ks with
  | nil => intro v h; cases h
  | cons k ks ih =>
    intro v h
    rw [cycleCheckAll] at h
    rcases ha : hasCycleAux dag v [] k with ⟨b, v', hsub⟩
    rw [ha] at h
    cases b
    · exact ih v' h
    · exact hasCycleAux_true_hasCycle dag v [] k (by simp) (by rw [ha])

/-- If the whole key scan reports no cycle, there is a processed superset
of the scanned keys from which no cycle is reachable. -/
theorem cycleCheckAll_false_safe (dag : Dag) :
    ∀ (ks : List String) (v : List String),
      SafeSet dag v [] → cycleCheckAll dag v ks = false →
      ∃ V, SafeSet dag V [] ∧ v ⊆ V ∧ ∀ k ∈ ks, k ∈ dagIds dag → k ∈ V := by
  intro ks
  induction ks with
  | nil =>
    intro v hsafe _
    exact ⟨v, hsafe, List.Subset.refl v, fun k hk => absurd hk (List.not_mem_nil k)⟩
  | cons k ks ih =>
    intro v hsafe h
    rw [cycleCheckAll] at h
    rcases ha : hasCycleAux dag v [] k with ⟨b, v', hsub⟩
    rw [ha] at h
    cases b
    · obtain ⟨hSafe1, hsub1, hk1⟩ := hasCycleAux_false_safe dag v [] k hsafe (by rw [ha])
      rw [ha] at hSafe1 hsub1 hk1
      obtain ⟨V, hSafeV, hsubV, hksV⟩ := ih v' hSafe1 h
      refine ⟨V, hSafeV, List.Subset.trans hsub1 hsubV, ?_⟩
      intro x hx hxids
      rcases List.mem_cons.mp hx with rfl | hxr
      · exact hsubV (hk1 hxids)
      · exact hksV x hxr hxids
    · cases h

theorem dagAny_id_iff {dag : Dag} {dep : String} :
    (dag.any (fun j => j.id == dep)) = true ↔ dep ∈ dagIds dag := by
  rw [List.any_eq_true]
  constructor
  · rintro ⟨j, hj, hid⟩
    simp only [beq_iff_eq] at hid
    exact hid ▸ List.mem_map_of_mem (fun j => j.id) hj
  · intro h
    rcases List.mem_map.mp h with ⟨j, hj, hid⟩
    exact ⟨j, hj, by simp [hid]⟩

theorem findMissingDep_eq_none {dag : Dag} :
    ∀ l : List DagJob,
      findMissingDep dag l = none ↔ ∀ job ∈ l, ∀ d ∈ job.dependsOn, d ∈ dagIds dag := by
  intro l
  induction l with
  | nil => simp [findMissingDep]
  | cons job rest ih =>
    rw [findMissingDep]
    rcases hf : job.dependsOn.find? (fun dep => !(dag.any (fun j => j.id == dep))) with _ | dep
    · rw [List.find?_eq_none] at hf
      simp only [ih]
      constructor
      · intro h j hj d hd
        rcases List.mem_cons.mp hj with rfl | hjr
        · have := hf d hd
          simp only [Bool.not_eq_true', ← dagAny_id_iff] at *
          simpa using this
        · exact h j hjr d hd
      · intro h j hj d hd
        exact h j (List.mem_cons_of_mem job hj) d hd
    · simp only [reduceCtorEq, false_iff, not_forall]
      have hmem := List.mem_of_find?_eq_some hf
      have hdep := List.find?_some hf
      simp only [Bool.not_eq_true'] at hdep
      refine ⟨job, List.mem_cons_self job rest, dep, hmem, ?_⟩
      rw [← dagAny_id_iff]
      simp [hdep]

/-- `validateDag` succeeds exactly when every dependency exists and the
dependency graph is acyclic. -/
theorem validateDag_ok_iff {dag : Dag} :
    validateDag dag = Except.ok () ↔ DepsClosed dag ∧ ¬ HasCycle dag := by
  unfold validateDag
  rcases hm : findMissingDep dag dag with _ | p
  · have hclosed : DepsClosed dag := (findMissingDep_eq_none dag).mp hm
    rcases hc : cycleCheckAll dag [] (dagIds dag) with _ | _
    · simp only [hc, if_false]
      constructor
      · intro _
        refine ⟨hclosed, ?_⟩
        rintro ⟨x, hcyc⟩
        obtain ⟨V, hSafeV, _, hcov⟩ := cycleCheckAll_false_safe dag (dagIds dag) []
          (fun b hb _ => absurd hb (List.not_mem_nil b)) hc
        have hxids : x ∈ dagIds dag := by
          obtain ⟨c, hcx, _⟩ := (Relation.TransGen.head'_iff).mp hcyc
          obtain ⟨job, hfind, _⟩ := hcx
          exact dagFind_some_mem_ids hfind
        exact hSafeV x (hcov x hxids hxids) (List.not_mem_nil x) ⟨x, Relation.ReflTransGen.refl, hcyc⟩
      · intro _; rfl
    · simp only [hc, if_true]
      constructor
      · intro h; cases h
      · rintro ⟨_, hnc⟩
        exact absurd (cycleCheckAll_true_hasCycle dag (dagIds dag) [] hc) hnc
  · constructor
    · intro h; cases h
    · rintro ⟨hclosed, _⟩
      exfalso
      have : findMissingDep dag dag = none := by
        rw [findMissingDep_eq_none]
        exact hclosed
      rw [hm] at this
      cases this

/-! ### Status maps: lookups through id-preserving rewrites -/

theorem dagFind_map_of_id {f : DagJob → DagJob} (hid : ∀ j, (f j).id = j.id) :
    ∀ (dag : Dag) (x : String), dagFind (dag.map f) x = (dagFind dag x).map f := by
  intro dag x
  induction dag with
  | nil => rfl
  | cons j rest ih =>
    rw [List.map_cons]
    unfold dagFind at *
    simp only [List.find?]
    rw [hid j]
    cases h : (j.id == x) with
    | true => simp [h]
    | false => simp only [h]; exact ih

theorem dagIds_map_of_id {f : DagJob → DagJob} (hid : ∀ j, (f j).id = j.id) (dag : Dag) :
    dagIds (dag.map f) = dagIds dag := by
  unfold dagIds
  rw [List.map_map]
  exact List.map_congr_left (fun j _ => hid j)

theorem edge_map_of_id {f : DagJob → DagJob} (hid : ∀ j, (f j).id = j.id)
    (hdeps : ∀ j, (f j).dependsOn = j.dependsOn) (dag : Dag) (a b : String) :
    edge (dag.map f) a b ↔ edge dag a b := by
  unfold edge
  constructor
  · rintro ⟨j2, hj2, hb⟩
    rw [dagFind_map_of_id hid] at hj2
    rcases hfind : dagFind dag a with _ | job
    · rw [hfind] at hj2; cases hj2
    · rw [hfind] at hj2
      simp only [Option.map_some', Option.some.injEq] at hj2
      subst hj2
      rw [hdeps] at hb
      exact ⟨job, rfl, hb⟩
  · rintro ⟨job, hjob, hb⟩
    refine ⟨f job, ?_, ?_⟩
    · rw [dagFind_map_of_id hid, hjob]; rfl
    · rw [hdeps]; exact hb

theorem hasCycle_map_of_id {f : DagJob → DagJob} (hid : ∀ j, (f j).id = j.id)
    (hdeps : ∀ j, (f j).dependsOn = j.dependsOn) (dag : Dag) :
    HasCycle (dag.map f) ↔ HasCycle dag := by
  unfold HasCycle
  constructor
  · rintro ⟨x, hx⟩
    exact ⟨x, Relation.TransGen.mono (fun a b h => (edge_map_of_id hid hdeps dag a b).mp h) hx⟩
  · rintro ⟨x, hx⟩
    exact ⟨x, Relation.TransGen.mono (fun a b h => (edge_map_of_id hid hdeps dag a b).mpr h) hx⟩

theorem setStatusFun_id (jobId : String) (st : Status) :
    ∀ j, (setStatusFun jobId st j).id = j.id := by
  intro j
  unfold setStatusFun
  by_cases h : (j.id == jobId) = true <;> simp [h]

theorem setStatusFun_deps (jobId : String) (st : Status) :
    ∀ j, (setStatusFun jobId st j).dependsOn = j.dependsOn := by
  intro j
  unfold setStatusFun
  by_cases h : (j.id == jobId) = true <;> simp [h]

theorem statusOf_setJobStatus (dag : Dag) (jobId : String) (st : Status) (x : String) :
    statusOf (setJobStatus dag jobId st) x =
      if x = jobId then (statusOf dag x).map (fun _ => st) else statusOf dag x := by
  unfold statusOf setJobStatus
  rw [dagFind_map_of_id (setStatusFun_id jobId st)]
  rcases h : dagFind dag x with _ | job
  · simp
  · have hid := dagFind_some_id h
    by_cases hx : x = jobId
    · subst hx
      simp [setStatusFun, hid]
    · simp only [Option.map_some']
      rw [if_neg hx]
      unfold setStatusFun
      rw [if_neg (by simp [hid, hx])]

theorem depsOf_setJobStatus (dag : Dag) (jobId : String) (st : Status) (x : String) :
    depsOf (setJobStatus dag jobId st) x = depsOf dag x := by
  unfold depsOf setJobStatus
  rw [dagFind_map_of_id (setStatusFun_id jobId st)]
  rcases h : dagFind dag x with _ | job
  · simp
  · simp [setStatusFun_deps jobId st job]

theorem dagIds_setJobStatus (dag : Dag) (jobId : String) (st : Status) :
    dagIds (setJobStatus dag jobId st) = dagIds dag :=
  dagIds_map_of_id (setStatusFun_id jobId st) dag

/-! ### `buildDag` output -/

theorem mapSet_dagIds (dag : Dag) (job : DagJob) :
    dagIds (mapSet dag job) =
      if job.id ∈ dagIds dag then dagIds dag else dagIds dag ++ [job.id] := by
  unfold mapSet
  by_cases h : job.id ∈ dagIds dag
  · rw [if_pos (dagAny_id_iff.mpr h), if_pos h]
    apply dagIds_map_of_id
    intro j
    by_cases hj : (j.id == job.id) = true
    · simp only [if_pos hj]
      simp only [beq_iff_eq] at hj
      exact hj.symm
    · simp [hj]
  · rw [if_neg (fun hc => h (dagAny_id_iff.mp hc)), if_neg h]
    unfold dagIds
    simp

theorem mapSet_status (dag : Dag) (job : DagJob)
    (hall : ∀ j ∈ dag, j.status = Status.pending) (hjob : job.status = Status.pending) :
    ∀ j ∈ mapSet dag job, j.status = Status.pending := by
  intro j hj
  unfold mapSet at hj
  by_cases h : (dag.any (fun j => j.id == job.id)) = true
  · rw [if_pos h] at hj
    rcases List.mem_map.mp hj with ⟨j0, hj0, hmap⟩
    by_cases h0 : (j0.id == job.id) = true
    · rw [← hmap]; simp [h0, hjob]
    · rw [← hmap]; simp only [h0, Bool.false_eq_true, if_false]; exact hall j0 hj0
  · rw [if_neg h] at hj
    rcases List.mem_append.mp hj with hj' | hj'
    · exact hall j hj'
    · rw [List.mem_singleton.mp hj']; exact hjob

theorem insertJobs_nodup (jobs : List DagNode) : NodupIds (insertJobs jobs) := by
  unfold insertJobs
  have main : ∀ (l : List DagNode) (acc : Dag), NodupIds acc →
      NodupIds (l.foldl (fun dag n => mapSet dag ⟨n.id, n.name, n.dependsOn, Status.pending⟩) acc) := by
    intro l
    induction l with
    | nil => intro acc h; exact h
    | cons n rest ih =>
      intro acc h
      rw [List.foldl_cons]
      apply ih
      unfold NodupIds at *
      rw [mapSet_dagIds]
      by_cases hmem : (⟨n.id, n.name, n.dependsOn, Status.pending⟩ : DagJob).id ∈ dagIds acc
      · rw [if_pos hmem]; exact h
      · rw [if_neg hmem]
        simpa [List.nodup_append] using ⟨h, fun hc => hmem hc⟩
  exact main jobs [] (by simp [NodupIds, dagIds])

theorem insertJobs_status (jobs : List DagNode) :
    ∀ j ∈ insertJobs jobs, j.status = Status.pending := by
  unfold insertJobs
  have main : ∀ (l : List DagNode) (acc : Dag), (∀ j ∈ acc, j.status = Status.pending) →
      ∀ j ∈ l.foldl (fun dag n => mapSet dag ⟨n.id, n.name, n.dependsOn, Status.pending⟩) acc,
        j.status = Status.pending := by
    intro l
    induction l with
    | nil => intro acc h; exact h
    | cons n rest ih =>
      intro acc h
      rw [List.foldl_cons]
      exact ih _ (mapSet_status acc _ h rfl)
  exact main jobs [] (by intro j hj; cases hj)

theorem readyMark_id : ∀ j, (readyMark j).id = j.id := by
  intro j
  unfold readyMark
  by_cases h : j.dependsOn.isEmpty <;> simp [h]

theorem readyMark_deps : ∀ j, (readyMark j).dependsOn = j.dependsOn := by
  intro j
  unfold readyMark
  by_cases h : j.dependsOn.isEmpty <;> simp [h]

theorem buildDag_ok_iff {jobs : List DagNode} {dag : Dag} :
    buildDag jobs = Except.ok dag ↔
      validateDag (insertJobs jobs) = Except.ok () ∧ dag = (insertJobs jobs).map readyMark := by
  unfold buildDag
  rcases hv : validateDag (insertJobs jobs) with e | u
  · simp [hv]
  · cases u
    simp only [hv, true_and]
    constructor
    · intro h
      injection h with h
      rw [← h]
    · intro h
      rw [h]

/-- Facts about every DAG that `buildDag` returns: distinct keys, closed
and acyclic dependencies, and initial statuses `ready` (no dependencies)
or `pending` (otherwise). -/
theorem buildDag_ok_facts {jobs : List DagNode} {dag0 : Dag}
    (h : buildDag jobs = Except.ok dag0) :
    NodupIds dag0 ∧ DepsClosed dag0 ∧ ¬ HasCycle dag0 ∧
      (∀ j ∈ dag0, j.status = if j.dependsOn.isEmpty then Status.ready else Status.pending) := by
  obtain ⟨hval, hdag⟩ := buildDag_ok_iff.mp h
  obtain ⟨hclosed, hacyc⟩ := validateDag_ok_iff.mp hval
  subst hdag
  have hids : dagIds ((insertJobs jobs).map readyMark) = dagIds (insertJobs jobs) :=
    dagIds_map_of_id readyMark_id _
  refine ⟨?_, ?_, ?_, ?_⟩
  · unfold NodupIds
    rw [hids]
    exact insertJobs_nodup jobs
  · intro j hj d hd
    rcases List.mem_map.mp hj with ⟨j0, hj0, hmap⟩
    rw [hids]
    refine hclosed j0 hj0 d ?_
    rw [← readyMark_deps j0, hmap]
    exact hd
  · rw [hasCycle_map_of_id readyMark_id readyMark_deps]
    exact hacyc
  · intro j hj
    rcases List.mem_map.mp hj with ⟨j0, hj0, hmap⟩
    have hst := insertJobs_status jobs j0 hj0
    by_cases hd : j0.dependsOn.isEmpty
    · have hrm : readyMark j0 = { j0 with status := Status.ready } := by
        unfold readyMark
        rw [if_pos hd]
      rw [← hmap, hrm]
      simp [hd]
    · have hrm : readyMark j0 = j0 := by
        unfold readyMark
        rw [if_neg hd]
      rw [← hmap, hrm]
      simp [hd, hst]

/-! ### Terminal statuses and the termination measure -/

/-- A status from which the scheduler never moves a node again. -/
def isTerminal : Status → Bool
  | Status.success => true
  | Status.failure => true
  | Status.skipped => true
  | Status.cancelled => true
  | _ => false

/-- Number of jobs not yet in a terminal status. -/
def nonTerminalCount (dag : Dag) : Nat :=
  (dag.filter (fun j => !(isTerminal j.status))).length

/-- Whether the key `x` holds a non-terminal job. -/
def ntAt (dag : Dag) (x : String) : Bool :=
  match statusOf dag x with
  | some s => !(isTerminal s)
  | none => false

theorem statusOf_cons_self {j : DagJob} {rest : Dag} :
    statusOf (j :: rest) j.id = some j.status := by
  unfold statusOf dagFind
  rw [List.find?_cons_of_pos _ (by simp)]
  rfl

theorem statusOf_cons_ne {j : DagJob} {rest : Dag} {x : String} (h : j.id ≠ x) :
    statusOf (j :: rest) x = statusOf rest x := by
  unfold statusOf dagFind
  rw [List.find?_cons_of_neg _ (by simp [h])]

theorem nonTerminalCount_eq_ids {dag : Dag} (hnd : NodupIds dag) :
    nonTerminalCount dag = ((dagIds dag).filter (ntAt dag)).length := by
  induction dag with
  | nil => rfl
  | cons j rest ih =>
    have hnd' : NodupIds rest := by
      unfold NodupIds dagIds at *
      exact (List.nodup_cons.mp hnd).2
    have hjid : j.id ∉ dagIds rest := by
      unfold NodupIds dagIds at hnd
      exact (List.nodup_cons.mp hnd).1
    have hcong : ∀ x ∈ dagIds rest, ntAt (j :: rest) x = ntAt rest x := by
      intro x hx
      unfold ntAt
      rw [statusOf_cons_ne (fun he => hjid (he ▸ hx))]
    unfold nonTerminalCount at *
    have hids : dagIds (j :: rest) = j.id :: dagIds rest := rfl
    rw [hids, List.filter_cons, List.filter_cons]
    have hnt : ntAt (j :: rest) j.id = !(isTerminal j.status) := by
      unfold ntAt
      rw [statusOf_cons_self]
    rw [List.filter_congr hcong, hnt]
    cases hterm : isTerminal j.status <;> simp [ih hnd']

theorem filter_length_le_of_imp {α : Type _} {p q : α → Bool} :
    ∀ {l : List α}, (∀ x ∈ l, q x = true → p x = true) →
      (l.filter q).length ≤ (l.filter p).length := by
  intro l
  induction l with
  | nil => intro _; exact Nat.le_refl 0
  | cons a l ih =>
    intro h
    rw [List.filter_cons, List.filter_cons]
    have hrest := ih (fun x hx => h x (List.mem_cons_of_mem a hx))
    cases hq : q a
    · cases hp : p a
      · simpa using hrest
      · simp only [List.length_cons]
        exact Nat.le_succ_of_le (by simpa using hrest)
    · rw [h a (List.mem_cons_self a l) hq]
      simpa using Nat.succ_le_succ hrest

theorem filter_length_lt_of_imp {α : Type _} {p q : α → Bool} :
    ∀ {l : List α}, (∀ x ∈ l, q x = true → p x = true) →
      (∃ x ∈ l, p x = true ∧ q x = false) →
      (l.filter q).length < (l.filter p).length := by
  intro l
  induction l with
  | nil =>
    rintro _ ⟨x, hx, _⟩
    exact absurd hx (List.not_mem_nil x)
  | cons a l ih =>
    rintro h ⟨x, hx, hpx, hqx⟩
    rw [List.filter_cons, List.filter_cons]
    rcases List.mem_cons.mp hx with rfl | hxl
    · rw [hpx, hqx]
      simpa using Nat.lt_succ_of_le
        (filter_length_le_of_imp (fun y hy => h y (List.mem_cons_of_mem x hy)))
    · have hrest := ih (fun y hy => h y (List.mem_cons_of_mem a hy)) ⟨x, hxl, hpx, hqx⟩
      cases hq : q a
      · cases hp : p a
        · simpa using hrest
        · simpa using Nat.lt_succ_of_lt hrest
      · rw [h a (List.mem_cons_self a l) hq]
        simpa using Nat.succ_lt_succ hrest

/-- Measure comparison at the level of key statuses. -/
theorem nonTerminalCount_lt {d d' : Dag} (hnd : NodupIds d) (hnd' : NodupIds d')
    (hids : dagIds d' = dagIds d)
    (himp : ∀ x ∈ dagIds d, ntAt d' x = true → ntAt d x = true)
    (hstrict : ∃ x ∈ dagIds d, ntAt d x = true ∧ ntAt d' x = false) :
    nonTerminalCount d' < nonTerminalCount d := by
  rw [nonTerminalCount_eq_ids hnd, nonTerminalCount_eq_ids hnd', hids]
  exact filter_length_lt_of_imp himp hstrict

/-! ### The promotion loop of `markJobCompleted` -/

/-- Whether the promotion loop of `markJobCompleted` promotes key `x`: a
`pending` job whose dependencies are all `success`. -/
def promotable (dag : Dag) (x : String) : Bool :=
  match dagFind dag x with
  | none => false
  | some job => decide (job.status = Status.pending) && allDepsSuccess dag job

theorem promotable_eq_true {dag : Dag} {x : String} :
    promotable dag x = true ↔
      ∃ job, dagFind dag x = some job ∧ job.status = Status.pending ∧
        allDepsSuccess dag job = true := by
  unfold promotable
  rcases h : dagFind dag x with _ | job
  · simp
  · simp [h]

theorem statusOf_eq_some_of_find {dag : Dag} {x : String} {job : DagJob}
    (h : dagFind dag x = some job) : statusOf dag x = some job.status := by
  unfold statusOf
  rw [h]
  rfl

theorem all_congr_bool {α : Type _} {p q : α → Bool} :
    ∀ {l : List α}, (∀ x ∈ l, p x = q x) → l.all p = l.all q := by
  intro l
  induction l with
  | nil => intro _; rfl
  | cons a l ih =>
    intro h
    rw [List.all_cons, List.all_cons, h a (List.mem_cons_self a l),
      ih (fun x hx => h x (List.mem_cons_of_mem a hx))]

theorem promote_successEq {d1 dp : Dag} {processed : List String}
    (hb : ∀ y, statusOf dp y =
      if y ∈ processed ∧ promotable d1 y = true then some Status.ready else statusOf d1 y) :
    ∀ y, (statusOf dp y == some Status.success) = (statusOf d1 y == some Status.success) := by
  intro y
  rw [hb y]
  by_cases hc : y ∈ processed ∧ promotable d1 y = true
  · rw [if_pos hc]
    obtain ⟨job, hfind, hpend, _⟩ := promotable_eq_true.mp hc.2
    rw [statusOf_eq_some_of_find hfind, hpend]
    rfl
  · rw [if_neg hc]

theorem promote_allDepsEq {d1 dp : Dag} {k : String} {job job1 : DagJob}
    (hdeps : ∀ y, depsOf dp y = depsOf d1 y)
    (hsucc : ∀ y, (statusOf dp y == some Status.success) = (statusOf d1 y == some Status.success))
    (hp : dagFind dp k = some job) (h1 : dagFind d1 k = some job1) :
    allDepsSuccess dp job = allDepsSuccess d1 job1 := by
  unfold allDepsSuccess
  have hd : job.dependsOn = job1.dependsOn := by
    have := hdeps k
    unfold depsOf at this
    rw [hp, h1] at this
    simpa using this
  rw [hd]
  exact all_congr_bool (fun dep _ => hsucc dep)

theorem promoteStep_eq_none {dp : Dag} {acc2 : List String} {k : String}
    (hp : dagFind dp k = none) : promoteStep (dp, acc2) k = (dp, acc2) := by
  unfold promoteStep
  rw [hp]

theorem promoteStep_eq_some {dp : Dag} {acc2 : List String} {k : String} {job : DagJob}
    (hp : dagFind dp k = some job) :
    promoteStep (dp, acc2) k =
      if job.status = Status.pending ∧ allDepsSuccess dp job = true then
        (setJobStatus dp k Status.ready, acc2 ++ [k])
      else (dp, acc2) := by
  unfold promoteStep
  rw [hp]

theorem promoteStep_inv (d1 dp : Dag) (acc2 processed : List String) (k : String)
    (ha : dagIds dp = dagIds d1) (hdeps : ∀ y, depsOf dp y = depsOf d1 y)
    (hb : ∀ y, statusOf dp y =
      if y ∈ processed ∧ promotable d1 y = true then some Status.ready else statusOf d1 y) :
    dagIds (promoteStep (dp, acc2) k).1 = dagIds d1 ∧
    (∀ y, depsOf (promoteStep (dp, acc2) k).1 y = depsOf d1 y) ∧
    (∀ y, statusOf (promoteStep (dp, acc2) k).1 y =
      if y ∈ processed ++ [k] ∧ promotable d1 y = true then some Status.ready
      else statusOf d1 y) := by
  have hmemiff : ∀ y, y ≠ k → (y ∈ processed ++ [k] ↔ y ∈ processed) := by
    intro y hy
    rw [List.mem_append, List.mem_singleton]
    exact ⟨fun h => h.elim id (fun he => absurd he hy), Or.inl⟩
  rcases hp : dagFind dp k with _ | job
  · -- dead branch of the iteration: the key is not in the map
    rw [promoteStep_eq_none hp]
    have hk1 : promotable d1 k = false := by
      unfold promotable
      have : dagFind d1 k = none := by
        rw [dagFind_eq_none] at hp ⊢
        rw [← ha]
        exact hp
      rw [this]
    refine ⟨ha, hdeps, ?_⟩
    intro y
    rw [hb y]
    by_cases hy : y = k
    · subst hy
      rw [if_neg (fun hcon => by rw [hk1] at hcon; exact Bool.false_ne_true hcon.2),
        if_neg (fun hcon => by rw [hk1] at hcon; exact Bool.false_ne_true hcon.2)]
    · by_cases hcy : y ∈ processed ∧ promotable d1 y = true
      · rw [if_pos hcy, if_pos ⟨(hmemiff y hy).mpr hcy.1, hcy.2⟩]
      · rw [if_neg hcy, if_neg (fun hcon => hcy ⟨(hmemiff y hy).mp hcon.1, hcon.2⟩)]
  · -- the key is present; decide whether it is promoted
    rw [promoteStep_eq_some hp]
    have hk : k ∈ dagIds d1 := by rw [← ha]; exact dagFind_some_mem_ids hp
    obtain ⟨job1, h1⟩ : ∃ job1, dagFind d1 k = some job1 := by
      rcases hf : dagFind d1 k with _ | job1
      · exact absurd (dagFind_eq_none.mp hf) (by simp [hk])
      · exact ⟨job1, rfl⟩
    have hsucc := promote_successEq hb
    have hall : allDepsSuccess dp job = allDepsSuccess d1 job1 :=
      promote_allDepsEq hdeps hsucc hp h1
    have hstatk : statusOf dp k = some job.status := statusOf_eq_some_of_find hp
    have hstat1 : statusOf d1 k = some job1.status := statusOf_eq_some_of_find h1
    by_cases hc : job.status = Status.pending ∧ allDepsSuccess dp job = true
    · -- promoted now
      have hnotbefore : ¬ (k ∈ processed ∧ promotable d1 k = true) := by
        intro hcon
        have := hb k
        rw [if_pos hcon, hstatk] at this
        injection this with hready
        rw [hc.1] at hready
        cases hready
      have hkstat1 : job1.status = Status.pending := by
        have := hb k
        rw [if_neg hnotbefore, hstatk, hstat1] at this
        injection this with hst
        rw [← hst]
        exact hc.1
      have hprom : promotable d1 k = true :=
        promotable_eq_true.mpr ⟨job1, h1, hkstat1, by rw [← hall]; exact hc.2⟩
      rw [if_pos hc]
      refine ⟨by rw [dagIds_setJobStatus]; exact ha,
        fun y => by rw [depsOf_setJobStatus]; exact hdeps y, ?_⟩
      intro y
      rw [statusOf_setJobStatus]
      by_cases hy : y = k
      · subst hy
        rw [if_pos rfl, if_pos ⟨List.mem_append.mpr (Or.inr (List.mem_singleton.mpr rfl)), hprom⟩,
          hstatk]
        rfl
      · rw [if_neg hy, hb y]
        by_cases hcy : y ∈ processed ∧ promotable d1 y = true
        · rw [if_pos hcy, if_pos ⟨(hmemiff y hy).mpr hcy.1, hcy.2⟩]
        · rw [if_neg hcy, if_neg (fun hcon => hcy ⟨(hmemiff y hy).mp hcon.1, hcon.2⟩)]
    · -- not promoted in this iteration
      rw [if_neg hc]
      refine ⟨ha, hdeps, ?_⟩
      intro y
      rw [hb y]
      by_cases hy : y = k
      · subst hy
        by_cases hprom : promotable d1 y = true
        · -- already promoted earlier, else this iteration would promote it
          obtain ⟨job1', h1', hpend', hall'⟩ := promotable_eq_true.mp hprom
          rw [h1] at h1'
          injection h1' with h1'
          subst h1'
          have hyproc : y ∈ processed := by
            by_contra hnp
            apply hc
            have := hb y
            rw [if_neg (fun hcon => hnp hcon.1), hstatk, hstat1] at this
            injection this with hst
            refine ⟨by rw [hst]; exact hpend', by rw [hall]; exact hall'⟩
          rw [if_pos ⟨hyproc, hprom⟩,
            if_pos ⟨List.mem_append.mpr (Or.inl hyproc), hprom⟩]
        · rw [if_neg (fun hcon => hprom hcon.2), if_neg (fun hcon => hprom hcon.2)]
      · by_cases hcy : y ∈ processed ∧ promotable d1 y = true
        · rw [if_pos hcy, if_pos ⟨(hmemiff y hy).mpr hcy.1, hcy.2⟩]
        · rw [if_neg hcy, if_neg (fun hcon => hcy ⟨(hmemiff y hy).mp hcon.1, hcon.2⟩)]

theorem promoteFold_inv (d1 : Dag) :
    ∀ (ks : List String) (dp : Dag) (acc2 processed : List String),
      dagIds dp = dagIds d1 →
      (∀ y, depsOf dp y = depsOf d1 y) →
      (∀ y, statusOf dp y =
        if y ∈ processed ∧ promotable d1 y = true then some Status.ready else statusOf d1 y) →
      dagIds (ks.foldl promoteStep (dp, acc2)).1 = dagIds d1 ∧
      (∀ y, depsOf (ks.foldl promoteStep (dp, acc2)).1 y = depsOf d1 y) ∧
      (∀ y, statusOf (ks.foldl promoteStep (dp, acc2)).1 y =
        if y ∈ processed ++ ks ∧ promotable d1 y = true then some Status.ready
        else statusOf d1 y) := by
  intro ks
  induction ks with
  | nil =>
    intro dp acc2 processed ha hdeps hb
    rw [List.foldl_nil]
    exact ⟨ha, hdeps, by simpa using hb⟩
  | cons k ks ih =>
    intro dp acc2 processed ha hdeps hb
    rw [List.foldl_cons]
    obtain ⟨ha', hdeps', hb'⟩ := promoteStep_inv d1 dp acc2 processed k ha hdeps hb
    rcases hps : promoteStep (dp, acc2) k with ⟨dp', acc2'⟩
    rw [hps] at ha' hdeps' hb'
    obtain ⟨ha'', hdeps'', hb''⟩ := ih dp' acc2' (processed ++ [k]) ha' hdeps' hb'
    refine ⟨ha'', hdeps'', ?_⟩
    intro y
    rw [hb'' y]
    have hmem : (y ∈ processed ++ [k] ++ ks) ↔ (y ∈ processed ++ k :: ks) := by
      simp [List.mem_append, List.mem_cons, or_assoc]
    by_cases hcy : y ∈ processed ++ [k] ++ ks ∧ promotable d1 y = true
    · rw [if_pos hcy, if_pos ⟨hmem.mp hcy.1, hcy.2⟩]
    · rw [if_neg hcy, if_neg (fun hcon => hcy ⟨hmem.mpr hcon.1, hcon.2⟩)]

/-- Unfolding of `markJobCompleted` on success. -/
theorem markJobCompleted_true_eq {dag : Dag} {jobId : String} {job : DagJob}
    (hfind : dagFind dag jobId = some job) :
    markJobCompleted dag jobId true =
      Except.ok ((dagIds (setJobStatus dag jobId Status.success)).foldl promoteStep
        (setJobStatus dag jobId Status.success, [])) := by
  unfold markJobCompleted
  rw [hfind]
  rfl

/-- Unfolding of `markJobCompleted` on failure. -/
theorem markJobCompleted_false_eq {dag : Dag} {jobId : String} {job : DagJob}
    (hfind : dagFind dag jobId = some job) :
    markJobCompleted dag jobId false =
      Except.ok (skipDependentJobs (setJobStatus dag jobId Status.failure) jobId, []) := by
  unfold markJobCompleted
  rw [hfind]
  rfl

/-! ### Closure properties of `findDependents` -/

/-- The set collected by `findDependents(failedJobId)` contains every
direct dependent of the failed job and is closed under taking dependents. -/
theorem fdFrom_spec (dag : Dag) :
    ∀ (toSkip : List String) (jobId : String) (hmem : jobId ∈ dagIds dag),
      (∀ job ∈ dag, jobId ∈ job.dependsOn → job.id ∈ (fdFrom dag toSkip jobId hmem).1) ∧
      (∀ x ∈ (fdFrom dag toSkip jobId hmem).1, x ∈ toSkip ∨
        (∀ job ∈ dag, x ∈ job.dependsOn → job.id ∈ (fdFrom dag toSkip jobId hmem).1)) := by
  refine fdFrom.induct dag
    (fun toSkip jobId jobs hjobs =>
      (∀ job ∈ jobs, jobId ∈ job.dependsOn → job.id ∈ (fdJobs dag toSkip jobId jobs hjobs).1) ∧
      (∀ x ∈ (fdJobs dag toSkip jobId jobs hjobs).1, x ∈ toSkip ∨
        (∀ job ∈ dag, x ∈ job.dependsOn → job.id ∈ (fdJobs dag toSkip jobId jobs hjobs).1)))
    (fun toSkip jobId hmem =>
      (∀ job ∈ dag, jobId ∈ job.dependsOn → job.id ∈ (fdFrom dag toSkip jobId hmem).1) ∧
      (∀ x ∈ (fdFrom dag toSkip jobId hmem).1, x ∈ toSkip ∨
        (∀ job ∈ dag, x ∈ job.dependsOn → job.id ∈ (fdFrom dag toSkip jobId hmem).1)))
    ?_ ?_ ?_ ?_
  · -- empty scan
    intro toSkip jobId hjobs _
    rw [fdJobs]
    exact ⟨fun job hjob _ => absurd hjob (List.not_mem_nil job),
      fun x hx => Or.inl hx⟩
  · -- scan hit: a new dependent is collected and recursed from
    intro toSkip jobId job rest hjobs hc t' ht' heqF t'' ht'' heqJ _ ihFrom ihRest
    have ihFrom' : (∀ job2 ∈ dag, job.id ∈ job2.dependsOn → job2.id ∈ t') ∧
        (∀ x ∈ t', x ∈ job.id :: toSkip ∨
          (∀ job2 ∈ dag, x ∈ job2.dependsOn → job2.id ∈ t')) := by
      have h2 := ihFrom
      rw [heqF] at h2
      exact h2
    have ihRest' : (∀ job2 ∈ rest, jobId ∈ job2.dependsOn → job2.id ∈ t'') ∧
        (∀ x ∈ t'', x ∈ t' ∨
          (∀ job2 ∈ dag, x ∈ job2.dependsOn → job2.id ∈ t'')) := by
      have h2 := ihRest
      rw [heqJ] at h2
      exact h2
    have hval : (fdJobs dag toSkip jobId (job :: rest) hjobs).1 = t'' := by
      rw [fdJobs, dif_pos hc, heqF]
      simp [heqJ]
    rw [hval]
    constructor
    · intro job2 hjob2 hdep
      rcases List.mem_cons.mp hjob2 with rfl | hjr
      · exact ht'' (ht' (List.mem_cons_self job2.id toSkip))
      · exact ihRest'.1 job2 hjr hdep
    · intro x hx
      rcases ihRest'.2 x hx with hxt' | hclosed
      · rcases ihFrom'.2 x hxt' with hxin | hclosed'
        · rcases List.mem_cons.mp hxin with rfl | hxts
          · -- x is the newly collected dependent: its dependents are in the set
            exact Or.inr (fun job2 hjob2 hdep => ht'' (ihFrom'.1 job2 hjob2 hdep))
          · exact Or.inl hxts
        · exact Or.inr (fun job2 hjob2 hdep => ht'' (hclosed' job2 hjob2 hdep))
      · exact Or.inr hclosed
  · -- scan miss: already collected or not a dependent
    intro toSkip jobId job rest hjobs hnc _ ihRest
    have ihRest' : (∀ job2 ∈ rest, jobId ∈ job2.dependsOn →
          job2.id ∈ (fdJobs dag toSkip jobId rest
            (fun j hj => hjobs j (List.mem_cons_of_mem job hj))).1) ∧
        (∀ x ∈ (fdJobs dag toSkip jobId rest
            (fun j hj => hjobs j (List.mem_cons_of_mem job hj))).1, x ∈ toSkip ∨
          (∀ job2 ∈ dag, x ∈ job2.dependsOn →
            job2.id ∈ (fdJobs dag toSkip jobId rest
              (fun j hj => hjobs j (List.mem_cons_of_mem job hj))).1)) := ihRest
    have hval : (fdJobs dag toSkip jobId (job :: rest) hjobs).1
        = (fdJobs dag toSkip jobId rest
            (fun j hj => hjobs j (List.mem_cons_of_mem job hj))).1 := by
      rw [fdJobs, dif_neg hnc]
    rw [hval]
    constructor
    · intro job2 hjob2 hdep
      rcases List.mem_cons.mp hjob2 with rfl | hjr
      · -- the hit condition failed, so this dependent was already collected
        have hin : job2.id ∈ toSkip := by
          by_contra hnot
          exact hnc ⟨hdep, hnot⟩
        exact (fdJobs dag toSkip jobId rest
          (fun j hj => hjobs j (List.mem_cons_of_mem job2 hj))).2 hin
      · exact ihRest'.1 job2 hjr hdep
    · exact ihRest'.2
  · -- the wrapper scans the whole map
    intro toSkip jobId hmem ih
    have ih' : (∀ job ∈ dag, jobId ∈ job.dependsOn →
          job.id ∈ (fdJobs dag toSkip jobId dag (fun _ hj => hj)).1) ∧
        (∀ x ∈ (fdJobs dag toSkip jobId dag (fun _ hj => hj)).1, x ∈ toSkip ∨
          (∀ job ∈ dag, x ∈ job.dependsOn →
            job.id ∈ (fdJobs dag toSkip jobId dag (fun _ hj => hj)).1)) := ih
    have hval : (fdFrom dag toSkip jobId hmem).1
        = (fdJobs dag toSkip jobId dag (fun _ hj => hj)).1 := by
      rw [fdFrom]
    rw [hval]
    exact ih'

/-! ### `skipDependentJobs` and `cancelAllJobs` as status rewrites -/

theorem skipMark_id (toSkip : List String) : ∀ j, (skipMark toSkip j).id = j.id := by
  intro j
  unfold skipMark
  by_cases h : j.id ∈ toSkip ∧ (j.status = Status.pending ∨ j.status = Status.ready) <;> simp [h]

theorem skipMark_deps (toSkip : List String) :
    ∀ j, (skipMark toSkip j).dependsOn = j.dependsOn := by
  intro j
  unfold skipMark
  by_cases h : j.id ∈ toSkip ∧ (j.status = Status.pending ∨ j.status = Status.ready) <;> simp [h]

theorem depsOf_map_of_id {f : DagJob → DagJob} (hid : ∀ j, (f j).id = j.id)
    (hdeps : ∀ j, (f j).dependsOn = j.dependsOn) (dag : Dag) (x : String) :
    depsOf (dag.map f) x = depsOf dag x := by
  unfold depsOf
  rw [dagFind_map_of_id hid]
  rcases h : dagFind dag x with _ | job
  · simp
  · simp [hdeps job]

theorem skipDependentJobs_eq {dag : Dag} {failedId : String} (hmem : failedId ∈ dagIds dag) :
    skipDependentJobs dag failedId = dag.map (skipMark (fdFrom dag [] failedId hmem).1) := by
  unfold skipDependentJobs
  rw [dif_pos hmem]

theorem statusOf_skipDependentJobs {dag : Dag} {failedId : String}
    (hmem : failedId ∈ dagIds dag) (x : String) :
    statusOf (skipDependentJobs dag failedId) x =
      (statusOf dag x).map (fun s =>
        if x ∈ (fdFrom dag [] failedId hmem).1 ∧ (s = Status.pending ∨ s = Status.ready)
        then Status.skipped else s) := by
  rw [skipDependentJobs_eq hmem]
  unfold statusOf
  rw [dagFind_map_of_id (skipMark_id _)]
  rcases h : dagFind dag x with _ | job
  · simp
  · have hid := dagFind_some_id h
    simp only [Option.map_some', Option.some.injEq]
    unfold skipMark
    rw [hid]
    by_cases hc : x ∈ (fdFrom dag [] failedId hmem).1 ∧
        (job.status = Status.pending ∨ job.status = Status.ready)
    · rw [if_pos hc, if_pos hc]
    · rw [if_neg hc, if_neg hc]

theorem statusOf_cancelAllJobs (dag : Dag) (x : String) :
    statusOf (cancelAllJobs dag) x =
      (statusOf dag x).map (fun s =>
        if s = Status.pending ∨ s = Status.ready then Status.cancelled else s) := by
  unfold statusOf cancelAllJobs
  have hid : ∀ j, (cancelMark j).id = j.id := by
    intro j
    unfold cancelMark
    by_cases h : j.status = Status.pending ∨ j.status = Status.ready <;> simp [h]
  rw [dagFind_map_of_id hid]
  rcases h : dagFind dag x with _ | job
  · simp
  · simp only [Option.map_some', Option.some.injEq]
    unfold cancelMark
    by_cases hc : job.status = Status.pending ∨ job.status = Status.ready
    · rw [if_pos hc, if_pos hc]
    · rw [if_neg hc, if_neg hc]

/-! ### The execution relation of the DAG-completion property -/

/-- One scheduler round: pick a `ready` node, `markJobRunning` it, then
`markJobCompleted` it with an arbitrary success flag. -/
def DagStep (d d' : Dag) : Prop :=
  ∃ (jobId : String) (b : Bool) (d1 : Dag) (res : Dag × List String),
    markJobRunning d jobId = Except.ok d1 ∧
    markJobCompleted d1 jobId b = Except.ok res ∧ d' = res.1

/-- Statuses a dependency of a `pending` node can have. -/
def AllowedDepStatus (s : Status) : Prop :=
  s = Status.pending ∨ s = Status.ready ∨ s = Status.running ∨ s = Status.success

/-- Invariant maintained by `DagStep` between scheduler rounds. -/
def StepInv (d : Dag) : Prop :=
  NodupIds d ∧
  (∀ y ds, depsOf d y = some ds → ∀ dep ∈ ds, dep ∈ dagIds d) ∧
  (∀ y, statusOf d y ≠ some Status.running) ∧
  (∀ y ds, statusOf d y = some Status.pending → depsOf d y = some ds →
    (∀ dep ∈ ds, ∃ s, statusOf d dep = some s ∧ AllowedDepStatus s) ∧
    (∃ dep ∈ ds, statusOf d dep ≠ some Status.success))

theorem markJobRunning_eq_none {d : Dag} {jobId : String}
    (h : dagFind d jobId = none) :
    markJobRunning d jobId = Except.error ("Job not found: " ++ jobId) := by
  unfold markJobRunning
  rw [h]

theorem markJobRunning_eq_some {d : Dag} {jobId : String} {job : DagJob}
    (h : dagFind d jobId = some job) :
    markJobRunning d jobId =
      if job.status = Status.ready then Except.ok (setJobStatus d jobId Status.running)
      else Except.error ("Job '" ++ job.name ++ "' is not ready to run") := by
  unfold markJobRunning
  rw [h]

theorem markJobRunning_ok_iff {d : Dag} {jobId : String} {d1 : Dag} :
    markJobRunning d jobId = Except.ok d1 ↔
      ∃ job, dagFind d jobId = some job ∧ job.status = Status.ready ∧
        d1 = setJobStatus d jobId Status.running := by
  rcases h : dagFind d jobId with _ | job
  · rw [markJobRunning_eq_none h]
    constructor
    · intro hc; cases hc
    · rintro ⟨job, hjob, _⟩; cases hjob
  · rw [markJobRunning_eq_some h]
    by_cases hr : job.status = Status.ready
    · rw [if_pos hr]
      constructor
      · intro hok
        injection hok with hok
        exact ⟨job, rfl, hr, hok.symm⟩
      · rintro ⟨job2, hjob2, _, hd1⟩
        rw [hd1]
    · rw [if_neg hr]
      constructor
      · intro hc; cases hc
      · rintro ⟨job2, hjob2, hr2, _⟩
        injection hjob2 with hjob2
        exact absurd (hjob2 ▸ hr2) hr

theorem statusOf_isSome_find {d : Dag} {y : String} {s : Status}
    (h : statusOf d y = some s) : ∃ job, dagFind d y = some job ∧ job.status = s := by
  unfold statusOf at h
  rcases hf : dagFind d y with _ | job
  · rw [hf] at h; cases h
  · rw [hf] at h
    injection h with h
    exact ⟨job, rfl, h⟩

theorem dagFind_of_mem_nodup {d : Dag} (hnd : NodupIds d) :
    ∀ {j : DagJob}, j ∈ d → dagFind d j.id = some j := by
  induction d with
  | nil =>
    intro j hj
    exact absurd hj (List.not_mem_nil j)
  | cons a rest ih =>
    intro j hj
    have hnd' : NodupIds rest := (List.nodup_cons.mp hnd).2
    have hna : a.id ∉ dagIds rest := (List.nodup_cons.mp hnd).1
    rcases List.mem_cons.mp hj with rfl | hjr
    · unfold dagFind
      rw [List.find?_cons_of_pos _ (by simp)]
    · have hne : a.id ≠ j.id := by
        intro he
        exact hna (he ▸ List.mem_map_of_mem (fun x => x.id) hjr)
      unfold dagFind
      rw [List.find?_cons_of_neg _ (by simp [hne])]
      exact ih hnd' hjr

theorem edge_iff_depsOf {d : Dag} {a b : String} :
    edge d a b ↔ ∃ ds, depsOf d a = some ds ∧ b ∈ ds := by
  unfold edge depsOf
  constructor
  · rintro ⟨job, hjob, hb⟩
    exact ⟨job.dependsOn, by rw [hjob]; rfl, hb⟩
  · rintro ⟨ds, hds, hb⟩
    rcases hf : dagFind d a with _ | job
    · rw [hf] at hds; cases hds
    · rw [hf] at hds
      injection hds with hds
      have hds' : job.dependsOn = ds := hds
      exact ⟨job, rfl, hds' ▸ hb⟩

theorem hasCycle_congr {d d' : Dag} (h : ∀ y, depsOf d' y = depsOf d y) :
    HasCycle d' ↔ HasCycle d := by
  have hedge : ∀ a b, edge d' a b ↔ edge d a b := by
    intro a b
    rw [edge_iff_depsOf, edge_iff_depsOf, h a]
  unfold HasCycle
  constructor
  · rintro ⟨x, hx⟩
    exact ⟨x, Relation.TransGen.mono (fun a b hab => (hedge a b).mp hab) hx⟩
  · rintro ⟨x, hx⟩
    exact ⟨x, Relation.TransGen.mono (fun a b hab => (hedge a b).mpr hab) hx⟩

theorem depsOf_find_eq {d : Dag} {y : String} {ds : List String}
    (h : depsOf d y = some ds) :
    ∃ jy, dagFind d y = some jy ∧ jy.id = y ∧ jy.dependsOn = ds ∧ jy ∈ d := by
  unfold depsOf at h
  rcases hf : dagFind d y with _ | jy
  · rw [hf] at h; cases h
  · rw [hf] at h
    injection h with h
    exact ⟨jy, rfl, dagFind_some_id hf, h, dagFind_some_mem hf⟩

theorem all_eq_false_exists {α : Type _} {p : α → Bool} :
    ∀ {l : List α}, l.all p = false → ∃ x ∈ l, p x = false := by
  intro l
  induction l with
  | nil => intro h; cases h
  | cons a l ih =>
    intro h
    rw [List.all_cons] at h
    cases ha : p a
    · exact ⟨a, List.mem_cons_self a l, ha⟩
    · rw [ha, Bool.true_and] at h
      obtain ⟨x, hx, hpx⟩ := ih h
      exact ⟨x, List.mem_cons_of_mem a hx, hpx⟩

/-- One scheduler round keeps the invariant, preserves the graph structure
and strictly decreases the number of non-terminal jobs. -/
theorem DagStep_facts {d d' : Dag} (hinv : StepInv d) (hstep : DagStep d d') :
    StepInv d' ∧ dagIds d' = dagIds d ∧ (∀ y, depsOf d' y = depsOf d y) ∧
      nonTerminalCount d' < nonTerminalCount d := by
  obtain ⟨jobId, b, d1, res, hrun, hcomp, hd'⟩ := hstep
  obtain ⟨job, hfind, hready, hd1⟩ := markJobRunning_ok_iff.mp hrun
  obtain ⟨hnd, hclosed, hnorun, hpend⟩ := hinv
  subst hd1
  subst hd'
  have hstat1 : ∀ y, statusOf (setJobStatus d jobId Status.running) y
      = if y = jobId then some Status.running else statusOf d y := by
    intro y
    rw [statusOf_setJobStatus]
    by_cases hy : y = jobId
    · subst hy
      rw [if_pos rfl, if_pos rfl, statusOf_eq_some_of_find hfind]
      rfl
    · rw [if_neg hy, if_neg hy]
  obtain ⟨job1, hfind1, hjob1status⟩ :
      ∃ job1, dagFind (setJobStatus d jobId Status.running) jobId = some job1 ∧
        job1.status = Status.running :=
    statusOf_isSome_find (by rw [hstat1]; simp)
  -- the status map after setting the final status `fs` of the completed job
  have hstat2 : ∀ (fs : Status), ∀ y,
      statusOf (setJobStatus (setJobStatus d jobId Status.running) jobId fs) y
        = if y = jobId then some fs else statusOf d y := by
    intro fs y
    rw [statusOf_setJobStatus]
    by_cases hy : y = jobId
    · subst hy
      rw [if_pos rfl, if_pos rfl, hstat1, if_pos rfl]
      rfl
    · rw [if_neg hy, if_neg hy, hstat1, if_neg hy]
  have hids2 : ∀ fs : Status,
      dagIds (setJobStatus (setJobStatus d jobId Status.running) jobId fs) = dagIds d := by
    intro fs
    rw [dagIds_setJobStatus, dagIds_setJobStatus]
  have hdeps2 : ∀ (fs : Status) y,
      depsOf (setJobStatus (setJobStatus d jobId Status.running) jobId fs) y = depsOf d y := by
    intro fs y
    rw [depsOf_setJobStatus, depsOf_setJobStatus]
  have hjobIdIds : jobId ∈ dagIds d := dagFind_some_mem_ids hfind
  cases b with
  | true =>
    rw [markJobCompleted_true_eq hfind1] at hcomp
    injection hcomp with hres
    have hfold := promoteFold_inv
      (setJobStatus (setJobStatus d jobId Status.running) jobId Status.success)
      (dagIds (setJobStatus (setJobStatus d jobId Status.running) jobId Status.success))
      (setJobStatus (setJobStatus d jobId Status.running) jobId Status.success) [] []
      rfl (fun _ => rfl)
      (by
        intro y
        rw [if_neg]
        rintro ⟨h0, _⟩
        exact absurd h0 (List.not_mem_nil y))
    rw [hres] at hfold
    obtain ⟨hidsF, hdepsF, hstatF0⟩ := hfold
    have hidsF' : dagIds res.1 = dagIds d := by rw [hidsF, hids2]
    have hdepsF' : ∀ y, depsOf res.1 y = depsOf d y := by
      intro y
      rw [hdepsF, hdeps2]
    have hstatF : ∀ y, statusOf res.1 y =
        if promotable (setJobStatus (setJobStatus d jobId Status.running) jobId
            Status.success) y = true
        then some Status.ready
        else statusOf (setJobStatus (setJobStatus d jobId Status.running) jobId
            Status.success) y := by
      intro y
      rw [hstatF0 y]
      by_cases hp : promotable (setJobStatus (setJobStatus d jobId Status.running) jobId
          Status.success) y = true
      · have hyids : y ∈ dagIds (setJobStatus (setJobStatus d jobId Status.running) jobId
            Status.success) := by
          obtain ⟨jy, hjy, _, _⟩ := promotable_eq_true.mp hp
          exact dagFind_some_mem_ids hjy
        rw [if_pos ⟨by simpa using hyids, hp⟩, if_pos hp]
      · rw [if_neg (fun hcon => hp hcon.2), if_neg hp]
    have hpromJob : promotable (setJobStatus (setJobStatus d jobId Status.running) jobId
        Status.success) jobId = false := by
      unfold promotable
      obtain ⟨j2, hj2, hj2s⟩ := statusOf_isSome_find
        (show statusOf (setJobStatus (setJobStatus d jobId Status.running) jobId
              Status.success) jobId = some Status.success by rw [hstat2]; simp)
      simp [hj2, hj2s]
    refine ⟨⟨?_, ?_, ?_, ?_⟩, hidsF', hdepsF', ?_⟩
    · unfold NodupIds
      rw [hidsF']
      exact hnd
    · intro y ds hds dep hdep
      rw [hidsF']
      exact hclosed y ds (by rw [← hdepsF']; exact hds) dep hdep
    · intro y hcon
      rw [hstatF] at hcon
      by_cases hp : promotable (setJobStatus (setJobStatus d jobId Status.running) jobId
          Status.success) y = true
      · rw [if_pos hp] at hcon
        cases hcon
      · rw [if_neg hp, hstat2] at hcon
        by_cases hy : y = jobId
        · rw [if_pos hy] at hcon
          cases hcon
        · rw [if_neg hy] at hcon
          exact hnorun y hcon
    · intro y ds hpending hds
      rw [hstatF] at hpending
      by_cases hp : promotable (setJobStatus (setJobStatus d jobId Status.running) jobId
          Status.success) y = true
      · rw [if_pos hp] at hpending
        cases hpending
      · rw [if_neg hp, hstat2] at hpending
        by_cases hy : y = jobId
        · rw [if_pos hy] at hpending
          cases hpending
        · rw [if_neg hy] at hpending
          have hdsd : depsOf d y = some ds := by rw [← hdepsF']; exact hds
          obtain ⟨hall, _⟩ := hpend y ds hpending hdsd
          constructor
          · intro dep hdep
            obtain ⟨s, hs, hallow⟩ := hall dep hdep
            rw [hstatF, hstat2]
            by_cases hpd : promotable (setJobStatus (setJobStatus d jobId Status.running)
                jobId Status.success) dep = true
            · exact ⟨Status.ready, by rw [if_pos hpd], Or.inr (Or.inl rfl)⟩
            · rw [if_neg hpd]
              by_cases hdj : dep = jobId
              · exact ⟨Status.success, by rw [if_pos hdj], Or.inr (Or.inr (Or.inr rfl))⟩
              · exact ⟨s, by rw [if_neg hdj]; exact hs, hallow⟩
          · -- the promotion check failed, so some dependency is not success
            obtain ⟨jy, hjy, hjys⟩ := statusOf_isSome_find
              (show statusOf (setJobStatus (setJobStatus d jobId Status.running) jobId
                  Status.success) y = some Status.pending by
                rw [hstat2, if_neg hy]; exact hpending)
            have hjyds : jy.dependsOn = ds := by
              obtain ⟨jy2, hjy2, _, hjy2ds, _⟩ := depsOf_find_eq
                (show depsOf (setJobStatus (setJobStatus d jobId Status.running) jobId
                    Status.success) y = some ds by rw [hdeps2]; exact hdsd)
              rw [hjy] at hjy2
              injection hjy2 with hjy2
              rw [hjy2]
              exact hjy2ds
            have hallfalse : allDepsSuccess (setJobStatus (setJobStatus d jobId
                Status.running) jobId Status.success) jy = false := by
              by_contra hcon
              rw [Bool.not_eq_false] at hcon
              apply hp
              unfold promotable
              simp [hjy, hjys, hcon]
            obtain ⟨dep0, hdep0, hdep0f⟩ := all_eq_false_exists
              (by unfold allDepsSuccess at hallfalse; exact hallfalse)
            rw [hjyds] at hdep0
            refine ⟨dep0, hdep0, ?_⟩
            rw [hstatF]
            by_cases hpd : promotable (setJobStatus (setJobStatus d jobId Status.running)
                jobId Status.success) dep0 = true
            · rw [if_pos hpd]
              intro hcon
              cases hcon
            · rw [if_neg hpd]
              intro hcon
              rw [hcon] at hdep0f
              simp at hdep0f
    · -- strictly fewer non-terminal jobs
      have hndF : NodupIds res.1 := by
        unfold NodupIds
        rw [hidsF']
        exact hnd
      refine nonTerminalCount_lt hnd hndF hidsF' ?_ ⟨jobId, hjobIdIds, ?_, ?_⟩
      · intro x _ hnt
        unfold ntAt at *
        rw [hstatF] at hnt
        by_cases hp : promotable (setJobStatus (setJobStatus d jobId Status.running) jobId
            Status.success) x = true
        · obtain ⟨jx, hjx, hjxp, _⟩ := promotable_eq_true.mp hp
          have : statusOf (setJobStatus (setJobStatus d jobId Status.running) jobId
              Status.success) x = some Status.pending := by
            rw [statusOf_eq_some_of_find hjx, hjxp]
          rw [hstat2] at this
          by_cases hx : x = jobId
          · rw [if_pos hx] at this
            cases this
          · rw [if_neg hx] at this
            rw [this]
            rfl
        · rw [if_neg hp, hstat2] at hnt
          by_cases hx : x = jobId
          · rw [if_pos hx] at hnt
            cases hnt
          · rw [if_neg hx] at hnt
            exact hnt
      · unfold ntAt
        rw [statusOf_eq_some_of_find hfind, hready]
        rfl
      · unfold ntAt
        rw [hstatF, if_neg (by rw [hpromJob]; exact Bool.false_ne_true), hstat2, if_pos rfl]
        rfl
  | false =>
    rw [markJobCompleted_false_eq hfind1] at hcomp
    injection hcomp with hres
    have hmem2 : jobId ∈ dagIds (setJobStatus (setJobStatus d jobId Status.running) jobId
        Status.failure) := by
      rw [hids2]
      exact hjobIdIds
    obtain ⟨hT1e, hT2e⟩ := fdFrom_spec (setJobStatus (setJobStatus d jobId Status.running)
      jobId Status.failure) [] jobId hmem2
    have hstatF : ∀ y, statusOf res.1 y =
        (statusOf (setJobStatus (setJobStatus d jobId Status.running) jobId Status.failure)
          y).map (fun s =>
            if y ∈ (fdFrom (setJobStatus (setJobStatus d jobId Status.running) jobId
                Status.failure) [] jobId hmem2).1 ∧
                (s = Status.pending ∨ s = Status.ready)
            then Status.skipped else s) := by
      intro y
      rw [← hres]
      exact statusOf_skipDependentJobs hmem2 y
    have hidsF' : dagIds res.1 = dagIds d := by
      rw [← hres, skipDependentJobs_eq hmem2, dagIds_map_of_id (skipMark_id _), hids2]
    have hdepsF' : ∀ y, depsOf res.1 y = depsOf d y := by
      intro y
      rw [← hres, skipDependentJobs_eq hmem2,
        depsOf_map_of_id (skipMark_id _) (skipMark_deps _), hdeps2]
    -- membership in the collected dependent set, at the level of `depsOf`
    have hT1 : ∀ y ds, depsOf d y = some ds → jobId ∈ ds →
        y ∈ (fdFrom (setJobStatus (setJobStatus d jobId Status.running) jobId
          Status.failure) [] jobId hmem2).1 := by
      intro y ds hds hjin
      obtain ⟨jy, hjy, hjyid, hjyds, hjymem⟩ := depsOf_find_eq
        (show depsOf (setJobStatus (setJobStatus d jobId Status.running) jobId
            Status.failure) y = some ds by rw [hdeps2]; exact hds)
      have := hT1e jy hjymem (by rw [hjyds]; exact hjin)
      rw [hjyid] at this
      exact this
    have hT2 : ∀ x, x ∈ (fdFrom (setJobStatus (setJobStatus d jobId Status.running) jobId
          Status.failure) [] jobId hmem2).1 →
        ∀ y ds, depsOf d y = some ds → x ∈ ds →
          y ∈ (fdFrom (setJobStatus (setJobStatus d jobId Status.running) jobId
            Status.failure) [] jobId hmem2).1 := by
      intro x hx y ds hds hxds
      rcases hT2e x hx with hempty | hclosedx
      · exact absurd hempty (List.not_mem_nil x)
      · obtain ⟨jy, hjy, hjyid, hjyds, hjymem⟩ := depsOf_find_eq
          (show depsOf (setJobStatus (setJobStatus d jobId Status.running) jobId
              Status.failure) y = some ds by rw [hdeps2]; exact hds)
        have := hclosedx jy hjymem (by rw [hjyds]; exact hxds)
        rw [hjyid] at this
        exact this
    refine ⟨⟨?_, ?_, ?_, ?_⟩, hidsF', hdepsF', ?_⟩
    · unfold NodupIds
      rw [hidsF']
      exact hnd
    · intro y ds hds dep hdep
      rw [hidsF']
      exact hclosed y ds (by rw [← hdepsF']; exact hds) dep hdep
    · intro y hcon
      rw [hstatF] at hcon
      rcases hs0 : statusOf (setJobStatus (setJobStatus d jobId Status.running) jobId
          Status.failure) y with _ | s0
      · rw [hs0] at hcon
        cases hcon
      · rw [hs0] at hcon
        simp only [Option.map_some', Option.some.injEq] at hcon
        by_cases hc : y ∈ (fdFrom (setJobStatus (setJobStatus d jobId Status.running) jobId
              Status.failure) [] jobId hmem2).1 ∧ (s0 = Status.pending ∨ s0 = Status.ready)
        · rw [if_pos hc] at hcon
          cases hcon
        · rw [if_neg hc] at hcon
          subst hcon
          rw [hstat2] at hs0
          by_cases hy : y = jobId
          · rw [if_pos hy] at hs0
            cases hs0
          · rw [if_neg hy] at hs0
            exact hnorun y hs0
    · intro y ds hpending hds
      rw [hstatF] at hpending
      rcases hs0 : statusOf (setJobStatus (setJobStatus d jobId Status.running) jobId
          Status.failure) y with _ | s0
      · rw [hs0] at hpending
        cases hpending
      · rw [hs0] at hpending
        simp only [Option.map_some', Option.some.injEq] at hpending
        by_cases hc : y ∈ (fdFrom (setJobStatus (setJobStatus d jobId Status.running) jobId
              Status.failure) [] jobId hmem2).1 ∧ (s0 = Status.pending ∨ s0 = Status.ready)
        · rw [if_pos hc] at hpending
          cases hpending
        · rw [if_neg hc] at hpending
          subst hpending
          have hyT : y ∉ (fdFrom (setJobStatus (setJobStatus d jobId Status.running) jobId
              Status.failure) [] jobId hmem2).1 := by
            intro hyin
            exact hc ⟨hyin, Or.inl rfl⟩
          rw [hstat2] at hs0
          by_cases hy : y = jobId
          · rw [if_pos hy] at hs0
            cases hs0
          · rw [if_neg hy] at hs0
            have hdsd : depsOf d y = some ds := by rw [← hdepsF']; exact hds
            obtain ⟨hall, hex⟩ := hpend y ds hs0 hdsd
            have hdepfree : ∀ dep ∈ ds, dep ≠ jobId ∧
                dep ∉ (fdFrom (setJobStatus (setJobStatus d jobId Status.running) jobId
                  Status.failure) [] jobId hmem2).1 := by
              intro dep hdep
              constructor
              · intro he
                exact hyT (hT1 y ds hdsd (he ▸ hdep))
              · intro hdT
                exact hyT (hT2 dep hdT y ds hdsd hdep)
            have hunchanged : ∀ dep ∈ ds, statusOf res.1 dep = statusOf d dep := by
              intro dep hdep
              obtain ⟨hdepne, hdepT⟩ := hdepfree dep hdep
              rw [hstatF]
              rcases hsd : statusOf (setJobStatus (setJobStatus d jobId Status.running)
                  jobId Status.failure) dep with _ | sd
              · rw [hstat2, if_neg hdepne] at hsd
                rw [hsd]
                rfl
              · simp only [Option.map_some']
                rw [if_neg (fun hcon => hdepT hcon.1)]
                rw [hstat2, if_neg hdepne] at hsd
                rw [hsd]
            constructor
            · intro dep hdep
              obtain ⟨s, hs, hallow⟩ := hall dep hdep
              exact ⟨s, by rw [hunchanged dep hdep]; exact hs, hallow⟩
            · obtain ⟨dep0, hdep0, hdep0ne⟩ := hex
              exact ⟨dep0, hdep0, by rw [hunchanged dep0 hdep0]; exact hdep0ne⟩
    · have hndF : NodupIds res.1 := by
        unfold NodupIds
        rw [hidsF']
        exact hnd
      refine nonTerminalCount_lt hnd hndF hidsF' ?_ ⟨jobId, hjobIdIds, ?_, ?_⟩
      · intro x _ hnt
        unfold ntAt at *
        rw [hstatF] at hnt
        rcases hs0 : statusOf (setJobStatus (setJobStatus d jobId Status.running) jobId
            Status.failure) x with _ | s0
        · rw [hs0] at hnt
          cases hnt
        · rw [hs0] at hnt
          simp only [Option.map_some'] at hnt
          by_cases hc : x ∈ (fdFrom (setJobStatus (setJobStatus d jobId Status.running)
                jobId Status.failure) [] jobId hmem2).1 ∧
              (s0 = Status.pending ∨ s0 = Status.ready)
          · rw [if_pos hc] at hnt
            cases hnt
          · rw [if_neg hc] at hnt
            rw [hstat2] at hs0
            by_cases hx : x = jobId
            · rw [if_pos hx] at hs0
              injection hs0 with hs0
              rw [← hs0] at hnt
              cases hnt
            · rw [if_neg hx] at hs0
              rw [hs0]
              exact hnt
      · unfold ntAt
        rw [statusOf_eq_some_of_find hfind, hready]
        rfl
      · unfold ntAt
        rw [hstatF]
        have hjf : statusOf (setJobStatus (setJobStatus d jobId Status.running) jobId
            Status.failure) jobId = some Status.failure := by
          rw [hstat2]
          simp
        rw [hjf]
        simp only [Option.map_some']
        rw [if_neg (fun hcon => by rcases hcon.2 with h | h <;> cases h)]
        rfl

/-- Whenever some job is `ready`, a scheduler round is possible. -/
theorem exists_step_of_ready {d : Dag} {y : String}
    (hstat : statusOf d y = some Status.ready) : ∃ d', DagStep d d' := by
  obtain ⟨jy, hjy, hjys⟩ := statusOf_isSome_find hstat
  have hrun : markJobRunning d y = Except.ok (setJobStatus d y Status.running) :=
    markJobRunning_ok_iff.mpr ⟨jy, hjy, hjys, rfl⟩
  have hmem1 : y ∈ dagIds (setJobStatus d y Status.running) := by
    rw [dagIds_setJobStatus]
    exact dagFind_some_mem_ids hjy
  obtain ⟨j1, hj1⟩ : ∃ j1, dagFind (setJobStatus d y Status.running) y = some j1 := by
    rcases hf : dagFind (setJobStatus d y Status.running) y with _ | j1
    · exact absurd (dagFind_eq_none.mp hf) (by simp [hmem1])
    · exact ⟨j1, rfl⟩
  exact ⟨_, y, true, setJobStatus d y Status.running, _, hrun,
    markJobCompleted_true_eq hj1, rfl⟩

/-- A finite nonempty set in which every element has a successor inside the
set contains a cycle. -/
theorem exists_cycle_of_descent {r : String → String → Prop} {S : List String}
    (hne : S ≠ []) (hsucc : ∀ a ∈ S, ∃ b ∈ S, r a b) :
    ∃ x, Relation.TransGen r x x := by
  classical
  obtain ⟨a0, ha0⟩ : ∃ a, a ∈ S := by
    rcases S with _ | ⟨a, S⟩
    · exact absurd rfl hne
    · exact ⟨a, List.mem_cons_self a S⟩
  let f : ℕ → { x : String // x ∈ S } := fun n =>
    Nat.rec ⟨a0, ha0⟩
      (fun _ p => ⟨Classical.choose (hsucc p.1 p.2),
        (Classical.choose_spec (hsucc p.1 p.2)).1⟩) n
  have hstep : ∀ n, r (f n).1 (f (n + 1)).1 := by
    intro n
    exact (Classical.choose_spec (hsucc (f n).1 (f n).2)).2
  have hchain : ∀ m n, m < n → Relation.TransGen r (f m).1 (f n).1 := by
    intro m n
    induction n with
    | zero => intro h; cases h
    | succ n ih =>
      intro h
      rcases Nat.lt_succ_iff_lt_or_eq.mp h with h' | h'
      · exact Relation.TransGen.tail (ih h') (hstep n)
      · rw [h']
        exact Relation.TransGen.single (hstep n)
  have hfinite : Finite { x : String // x ∈ S } := S.finite_toSet.to_subtype
  obtain ⟨m, n, hmn, heq⟩ := Finite.exists_ne_map_eq_of_infinite f
  rcases Nat.lt_or_ge m n with h | h
  · exact ⟨(f m).1, by
      have := hchain m n h
      rw [← heq] at this
      exact this⟩
  · have h' : n < m := Nat.lt_of_le_of_ne h (fun he => hmn he.symm)
    exact ⟨(f n).1, by
      have := hchain n m h'
      rw [heq] at this
      exact this⟩

/-- When no job is `ready`, an invariant-satisfying acyclic DAG has every
job terminal. -/
theorem stuck_all_terminal {d : Dag} (hinv : StepInv d) (hacyc : ¬ HasCycle d)
    (hnoready : ∀ y, statusOf d y ≠ some Status.ready) :
    ∀ j ∈ d, isTerminal j.status = true := by
  obtain ⟨hnd, hclosed, hnorun, hpend⟩ := hinv
  -- no job is pending either, else the pending jobs would contain a cycle
  have hnopending : ∀ y, statusOf d y ≠ some Status.pending := by
    intro y0 hy0
    set S : List String := (dagIds d).filter
      (fun y => statusOf d y == some Status.pending) with hS
    have hSmem : ∀ y, y ∈ S ↔ y ∈ dagIds d ∧ statusOf d y = some Status.pending := by
      intro y
      rw [hS, List.mem_filter]
      simp
    have hSne : S ≠ [] := by
      intro hcon
      have : y0 ∈ S := (hSmem y0).mpr
        ⟨by
          obtain ⟨jy, hjy, _⟩ := statusOf_isSome_find hy0
          exact dagFind_some_mem_ids hjy, hy0⟩
      rw [hcon] at this
      exact absurd this (List.not_mem_nil y0)
    have hsucc : ∀ a ∈ S, ∃ b ∈ S, edge d a b := by
      intro a ha
      obtain ⟨_, hastat⟩ := (hSmem a).mp ha
      obtain ⟨ja, hja, hjas⟩ := statusOf_isSome_find hastat
      have hdsa : depsOf d a = some ja.dependsOn := by
        unfold depsOf
        rw [hja]
        rfl
      obtain ⟨hall, dep0, hdep0, hdep0ne⟩ := hpend a ja.dependsOn hastat hdsa
      obtain ⟨s, hs, hallow⟩ := hall dep0 hdep0
      have hsp : s = Status.pending := by
        rcases hallow with h | h | h | h
        · exact h
        · exact absurd (h ▸ hs) (hnoready dep0)
        · exact absurd (h ▸ hs) (hnorun dep0)
        · exact absurd (h ▸ hs) hdep0ne
      refine ⟨dep0, (hSmem dep0).mpr ⟨?_, hsp ▸ hs⟩, ⟨ja, hja, hdep0⟩⟩
      obtain ⟨jd, hjd, _⟩ := statusOf_isSome_find hs
      exact dagFind_some_mem_ids hjd
    exact hacyc (exists_cycle_of_descent hSne hsucc)
  intro j hj
  have hstat : statusOf d j.id = some j.status := by
    unfold statusOf
    rw [dagFind_of_mem_nodup hnd hj]
    rfl
  cases hs : j.status with
  | pending => exact absurd (hs ▸ hstat) (hnopending j.id)
  | ready => exact absurd (hs ▸ hstat) (hnoready j.id)
  | running => exact absurd (hs ▸ hstat) (hnorun j.id)
  | success => rfl
  | failure => rfl
  | skipped => rfl
  | cancelled => rfl

/-- `StepInv`, the dependency structure and acyclicity hold in every state
reachable from a `buildDag` output. -/
theorem reachable_facts {jobs : List DagNode} {dag0 : Dag}
    (h0 : buildDag jobs = Except.ok dag0) :
    ∀ d, Relation.ReflTransGen DagStep dag0 d →
      StepInv d ∧ ¬ HasCycle d := by
  obtain ⟨hnd0, hclosed0, hacyc0, hstat0⟩ := buildDag_ok_facts h0
  have hinv0 : StepInv dag0 := by
    refine ⟨hnd0, ?_, ?_, ?_⟩
    · intro y ds hds dep hdep
      obtain ⟨jy, _, _, hjyds, hjymem⟩ := depsOf_find_eq hds
      exact hclosed0 jy hjymem dep (hjyds ▸ hdep)
    · intro y hcon
      obtain ⟨jy, hjy, hjys⟩ := statusOf_isSome_find hcon
      have := hstat0 jy (dagFind_some_mem hjy)
      rw [hjys] at this
      by_cases hd : jy.dependsOn.isEmpty
      · rw [if_pos hd] at this; cases this
      · rw [if_neg hd] at this; cases this
    · intro y ds hpending hds
      obtain ⟨jy, hjy, hjyid, hjyds, hjymem⟩ := depsOf_find_eq hds
      have hjystat : jy.status = Status.pending := by
        have := statusOf_eq_some_of_find hjy
        rw [hpending] at this
        injection this with this
        exact this.symm
      have hne : ¬ jy.dependsOn.isEmpty := by
        intro hcon
        have := hstat0 jy hjymem
        rw [if_pos hcon, hjystat] at this
        cases this
      have hdepstat : ∀ dep ∈ ds, ∃ s, statusOf dag0 dep = some s ∧
          (s = Status.ready ∨ s = Status.pending) := by
        intro dep hdep
        have hdepids : dep ∈ dagIds dag0 := hclosed0 jy hjymem dep (hjyds ▸ hdep)
        obtain ⟨jd, hjd⟩ : ∃ jd, dagFind dag0 dep = some jd := by
          rcases hf : dagFind dag0 dep with _ | jd
          · exact absurd (dagFind_eq_none.mp hf) (by simp [hdepids])
          · exact ⟨jd, rfl⟩
        have hjdstat := hstat0 jd (dagFind_some_mem hjd)
        refine ⟨jd.status, statusOf_eq_some_of_find hjd, ?_⟩
        by_cases hde : jd.dependsOn.isEmpty
        · rw [if_pos hde] at hjdstat
          exact Or.inl hjdstat
        · rw [if_neg hde] at hjdstat
          exact Or.inr hjdstat
      constructor
      · intro dep hdep
        obtain ⟨s, hs, hallow⟩ := hdepstat dep hdep
        refine ⟨s, hs, ?_⟩
        rcases hallow with h | h
        · exact Or.inr (Or.inl h)
        · exact Or.inl h
      · obtain ⟨dep0, hdep0⟩ : ∃ dep0, dep0 ∈ ds := by
          rcases hd : ds with _ | ⟨a, l⟩
          · exfalso
            apply hne
            rw [hjyds, hd]
            rfl
          · exact ⟨a, List.mem_cons_self a l⟩
        obtain ⟨s, hs, hallow⟩ := hdepstat dep0 hdep0
        refine ⟨dep0, hdep0, ?_⟩
        rw [hs]
        rcases hallow with h | h <;> rw [h] <;> intro hcon <;> cases hcon
  intro d hreach
  induction hreach with
  | refl => exact ⟨hinv0, hacyc0⟩
  | tail hprev hstep ih =>
    obtain ⟨hinvP, hacycP⟩ := ih
    obtain ⟨hinvN, _, hdepsN, _⟩ := DagStep_facts hinvP hstep
    exact ⟨hinvN, by rw [hasCycle_congr hdepsN]; exact hacycP⟩

/-- C1: for any DAG built by `buildDag`, every execution that repeatedly
picks a `ready` node, marks it running via `markJobRunning` and completes
it via `markJobCompleted` with an arbitrary success flag terminates (each
round strictly decreases the number of non-terminal jobs), and any
reachable state from which no further round is possible has every node in
a terminal status — none is left `pending`, `ready` or `running`. -/
theorem claim_C1 :
    ∀ (jobs : List DagNode) (dag0 : Dag), buildDag jobs = Except.ok dag0 →
      (∀ d d', Relation.ReflTransGen DagStep dag0 d → DagStep d d' →
        nonTerminalCount d' < nonTerminalCount d) ∧
      (∀ d, Relation.ReflTransGen DagStep dag0 d → (∀ d', ¬ DagStep d d') →
        ∀ j ∈ d, isTerminal j.status = true) := by
  intro jobs dag0 h0
  constructor
  · intro d d' hreach hstep
    exact (DagStep_facts (reachable_facts h0 d hreach).1 hstep).2.2.2
  · intro d hreach hstuck j hj
    obtain ⟨hinv, hacyc⟩ := reachable_facts h0 d hreach
    refine stuck_all_terminal hinv hacyc ?_ j hj
    intro y hy
    obtain ⟨d', hd'⟩ := exists_step_of_ready hy
    exact hstuck d' hd'

/-- Witness: `claim_C1` applied to a concrete (empty) job set. -/
theorem claim_C1_witness :
    buildDag ([] : List DagNode) = Except.ok ([] : Dag) ∧
      (∀ j ∈ ([] : Dag), isTerminal j.status = true) := by
  have hb : buildDag ([] : List DagNode) = Except.ok ([] : Dag) := by
    simp [buildDag, insertJobs, validateDag, findMissingDep, cycleCheckAll, dagIds]
  refine ⟨hb, ?_⟩
  refine (claim_C1 [] [] hb).2 [] Relation.ReflTransGen.refl ?_
  rintro d' ⟨jobId, b, d1, res, hrun, -, -⟩
  obtain ⟨job, hfind, -, -⟩ := markJobRunning_ok_iff.mp hrun
  cases hfind

/-! ### Correctness of `getTopologicalOrder` -/

/-- Every listed dependency of an emitted node precedes it in the order. -/
def SortedOrder (dag : Dag) (order : List String) : Prop :=
  ∀ pre x post, order = pre ++ x :: post →
    ∀ ds, depsOf dag x = some ds → ∀ d ∈ ds, d ∈ pre

/-- Invariant of the topological DFS state. -/
def TopoInv (dag : Dag) (v o : List String) : Prop :=
  o.Nodup ∧ (∀ x ∈ o, x ∈ v) ∧ (∀ x ∈ o, x ∈ dagIds dag) ∧ SortedOrder dag o

/-- The ghost gray set: visited but not yet emitted. -/
def GrayIs (v o S : List String) : Prop :=
  ∀ g, (g ∈ v ∧ g ∉ o) ↔ g ∈ S

theorem visitTopo_unfold_visited {dag : Dag} {v o : List String} {j : String}
    (hv : j ∈ v) : visitTopo dag v o j = ⟨(v, o), List.Subset.refl v⟩ := by
  rw [visitTopo]
  simp [hv]

theorem visitTopo_unfold_none {dag : Dag} {v o : List String} {j : String}
    (hv : j ∉ v) (hfind : dagFind dag j = none) :
    visitTopo dag v o j =
      ⟨(j :: v, o ++ [j]), fun _ hx => List.mem_cons_of_mem _ hx⟩ := by
  rw [visitTopo]
  simp only [dif_neg hv]
  split
  · rfl
  · rename_i job2 heq
    rw [hfind] at heq
    cases heq

theorem visitTopo_unfold_rec {dag : Dag} {v o : List String} {j : String} {job : DagJob}
    (hv : j ∉ v) (hfind : dagFind dag j = some job) :
    (visitTopo dag v o j).1.1 = (visitTopoDeps dag (j :: v) o job.dependsOn).1.1 ∧
      (visitTopo dag v o j).1.2
        = (visitTopoDeps dag (j :: v) o job.dependsOn).1.2 ++ [j] := by
  rw [visitTopo]
  simp only [dif_neg hv]
  split
  · rename_i heq
    rw [hfind] at heq
    cases heq
  · rename_i job2 heq
    rw [hfind] at heq
    injection heq with heq
    subst heq
    rcases hd : visitTopoDeps dag (j :: v) o job.dependsOn with ⟨⟨v', o'⟩, hsub⟩
    simp

theorem visitTopoDeps_unfold_nil {dag : Dag} {v o : List String} :
    visitTopoDeps dag v o [] = ⟨(v, o), List.Subset.refl v⟩ := by
  rw [visitTopoDeps]

theorem visitTopoDeps_unfold_cons {dag : Dag} {v o : List String} {dep : String}
    {rest : List String} :
    (visitTopoDeps dag v o (dep :: rest)).1
      = (visitTopoDeps dag (visitTopo dag v o dep).1.1 (visitTopo dag v o dep).1.2 rest).1 := by
  rw [visitTopoDeps]

theorem append_singleton_split {α : Type} {o pre post : List α} {a x : α}
    (h : o ++ [a] = pre ++ x :: post) :
    (pre = o ∧ x = a ∧ post = []) ∨ (∃ post2, o = pre ++ x :: post2 ∧ post = post2 ++ [a]) := by
  rcases List.eq_nil_or_concat post with hnil | ⟨post2, y, hy⟩
  · subst hnil
    have hinj := List.append_inj' h rfl
    have hax : x = a := by simpa using hinj.2.symm
    exact Or.inl ⟨hinj.1.symm, hax, rfl⟩
  · subst hy
    have h2 : o ++ [a] = (pre ++ x :: post2) ++ [y] := by
      rw [h]
      simp
    have hinj := List.append_inj' h2 rfl
    have hay : a = y := by simpa using hinj.2
    exact Or.inr ⟨post2, hinj.1, by simp [hay]⟩

/-- Main contract of the topological DFS, by mutual functional induction
with a ghost gray stack `S`. -/
theorem visitTopo_spec (dag : Dag) (hacyc : ¬ HasCycle dag) (hclosed : DepsClosed dag) :
    ∀ (v o : List String) (j : String) (S : List String),
      TopoInv dag v o → GrayIs v o S →
      (∀ g ∈ S, Relation.TransGen (edge dag) g j) → j ∈ dagIds dag →
      TopoInv dag (visitTopo dag v o j).1.1 (visitTopo dag v o j).1.2 ∧
      GrayIs (visitTopo dag v o j).1.1 (visitTopo dag v o j).1.2 S ∧
      (∃ Δ, (visitTopo dag v o j).1.2 = o ++ Δ) ∧
      j ∈ (visitTopo dag v o j).1.2 := by
  refine visitTopo.induct dag
    (fun v o j => ∀ S : List String,
      TopoInv dag v o → GrayIs v o S →
      (∀ g ∈ S, Relation.TransGen (edge dag) g j) → j ∈ dagIds dag →
      TopoInv dag (visitTopo dag v o j).1.1 (visitTopo dag v o j).1.2 ∧
      GrayIs (visitTopo dag v o j).1.1 (visitTopo dag v o j).1.2 S ∧
      (∃ Δ, (visitTopo dag v o j).1.2 = o ++ Δ) ∧
      j ∈ (visitTopo dag v o j).1.2)
    (fun v o deps => ∀ S : List String,
      TopoInv dag v o → GrayIs v o S →
      (∀ g ∈ S, ∀ d ∈ deps, Relation.TransGen (edge dag) g d) →
      (∀ d ∈ deps, d ∈ dagIds dag) →
      TopoInv dag (visitTopoDeps dag v o deps).1.1 (visitTopoDeps dag v o deps).1.2 ∧
      GrayIs (visitTopoDeps dag v o deps).1.1 (visitTopoDeps dag v o deps).1.2 S ∧
      (∃ Δ, (visitTopoDeps dag v o deps).1.2 = o ++ Δ) ∧
      (∀ d ∈ deps, d ∈ (visitTopoDeps dag v o deps).1.2))
    ?_ ?_ ?_ ?_ ?_
  · -- already visited: already emitted, else a gray node reaches itself
    intro v o j hv S hinv hgray hstack hids
    rw [visitTopo_unfold_visited hv]
    refine ⟨hinv, hgray, ⟨[], by simp⟩, ?_⟩
    by_cases ho : j ∈ o
    · exact ho
    · exact absurd ⟨j, hstack j ((hgray j).mp ⟨hv, ho⟩) ⟩ hacyc
  · -- unknown key: impossible for scanned keys
    intro v o j hv hfind S hinv hgray hstack hids
    exact absurd hids (dagFind_eq_none.mp hfind)
  · -- recursive case: visit dependencies, then emit the node
    intro v o j hv job hfind v1 o1 hsub heq ih2 S hinv hgray hstack hids
    obtain ⟨hnodup, hoin, hoids, hsorted⟩ := hinv
    have hjo : j ∉ o := fun hjin => hv (hoin j hjin)
    have hinv2 : TopoInv dag (j :: v) o :=
      ⟨hnodup, fun x hx => List.mem_cons_of_mem _ (hoin x hx), hoids, hsorted⟩
    have hgray2 : GrayIs (j :: v) o (j :: S) := by
      intro g
      constructor
      · rintro ⟨hgv, hgo⟩
        rcases List.mem_cons.mp hgv with hgj | hgv2
        · exact hgj ▸ List.mem_cons_self j S
        · exact List.mem_cons_of_mem _ ((hgray g).mp ⟨hgv2, hgo⟩)
      · intro hgS
        rcases List.mem_cons.mp hgS with hgj | hgS2
        · subst hgj
          exact ⟨List.mem_cons_self g v, hjo⟩
        · obtain ⟨hgv, hgo⟩ := (hgray g).mpr hgS2
          exact ⟨List.mem_cons_of_mem _ hgv, hgo⟩
    have hstack2 : ∀ g ∈ j :: S, ∀ d ∈ job.dependsOn, Relation.TransGen (edge dag) g d := by
      intro g hg d hd
      have hedge : edge dag j d := ⟨job, hfind, hd⟩
      rcases List.mem_cons.mp hg with hgj | hgS2
      · exact hgj ▸ Relation.TransGen.single hedge
      · exact Relation.TransGen.tail (hstack g hgS2) hedge
    have hdepIds : ∀ d ∈ job.dependsOn, d ∈ dagIds dag :=
      fun d hd => hclosed job (dagFind_some_mem hfind) d hd
    have hIH := ih2 (j :: S) hinv2 hgray2 hstack2 hdepIds
    rw [heq] at hIH
    obtain ⟨hinv1, hgray1, hΔ1, hmem1⟩ := hIH
    have hinvR : TopoInv dag v1 o1 := hinv1
    have hgrayR : GrayIs v1 o1 (j :: S) := hgray1
    have hmemR : ∀ d ∈ job.dependsOn, d ∈ o1 := hmem1
    obtain ⟨Δ1, hΔ1e⟩ := hΔ1
    have hΔR : o1 = o ++ Δ1 := hΔ1e
    obtain ⟨hres1, hres2⟩ := visitTopo_unfold_rec hv hfind
    rw [heq] at hres1 hres2
    have hresV : (visitTopo dag v o j).1.1 = v1 := hres1
    have hresO : (visitTopo dag v o j).1.2 = o1 ++ [j] := hres2
    rw [hresV, hresO]
    obtain ⟨hnd1, ho1v, ho1ids, hsort1⟩ := hinvR
    obtain ⟨hjv1, hjo1⟩ := (hgrayR j).mpr (List.mem_cons_self j S)
    refine ⟨⟨?_, ?_, ?_, ?_⟩, ?_, ⟨Δ1 ++ [j], by rw [hΔR, List.append_assoc]⟩, by simp⟩
    · refine List.Nodup.append hnd1 (List.nodup_singleton j) ?_
      intro x hx hx2
      rw [List.mem_singleton] at hx2
      subst hx2
      exact hjo1 hx
    · intro x hx
      rcases List.mem_append.mp hx with h | h
      · exact ho1v x h
      · rw [List.mem_singleton] at h
        exact h ▸ hjv1
    · intro x hx
      rcases List.mem_append.mp hx with h | h
      · exact ho1ids x h
      · rw [List.mem_singleton] at h
        exact h ▸ hids
    · intro pre x post hsplit ds hds d hd
      rcases append_singleton_split hsplit with ⟨hpre, hx, hpost⟩ | ⟨post2, hoeq, hposteq⟩
      · subst hpre
        have hdeq : depsOf dag j = some job.dependsOn := by
          unfold depsOf
          rw [hfind]
          rfl
        rw [hx, hdeq] at hds
        injection hds with hds2
        subst hds2
        exact hmemR d hd
      · exact hsort1 pre x post2 hoeq ds hds d hd
    · intro g
      constructor
      · rintro ⟨hgv, hgo⟩
        have hgo1 : g ∉ o1 := fun h => hgo (List.mem_append_left _ h)
        have hgj : g ≠ j := fun h => hgo (by simp [h])
        rcases List.mem_cons.mp ((hgrayR g).mp ⟨hgv, hgo1⟩) with h | h
        · exact absurd h hgj
        · exact h
      · intro hgS
        obtain ⟨hgv0, hgo0⟩ := (hgray g).mpr hgS
        have hgj : g ≠ j := fun h => hv (h ▸ hgv0)
        obtain ⟨hgv1, hgo1⟩ := (hgrayR g).mpr (List.mem_cons_of_mem _ hgS)
        refine ⟨hgv1, ?_⟩
        intro hmem
        rcases List.mem_append.mp hmem with h | h
        · exact hgo1 h
        · exact hgj (List.mem_singleton.mp h)
  · -- empty dependency list
    intro v o S hinv hgray hstack hids
    rw [visitTopoDeps_unfold_nil]
    exact ⟨hinv, hgray, ⟨[], by simp⟩, by simp⟩
  · -- nonempty dependency list
    intro v o dep rest v1 o1 hsub heq1 p hsub2 heq2 ih1 ih2 S hinv hgray hstack hdeps
    have hih1 := ih1 S hinv hgray
      (fun g hg => hstack g hg dep (List.mem_cons_self dep rest))
      (hdeps dep (List.mem_cons_self dep rest))
    rw [heq1] at hih1
    obtain ⟨hinv1, hgray1, hΔ1, hdep1⟩ := hih1
    have hinvA : TopoInv dag v1 o1 := hinv1
    have hgrayA : GrayIs v1 o1 S := hgray1
    have hdepA : dep ∈ o1 := hdep1
    obtain ⟨Δ1, hΔ1e⟩ := hΔ1
    have hΔA : o1 = o ++ Δ1 := hΔ1e
    have hih2 := ih2 S hinvA hgrayA
      (fun g hg d hd => hstack g hg d (List.mem_cons_of_mem _ hd))
      (fun d hd => hdeps d (List.mem_cons_of_mem _ hd))
    rw [heq2] at hih2
    obtain ⟨hinv2, hgray2, hΔ2, hmem2⟩ := hih2
    have hinvB : TopoInv dag p.1 p.2 := hinv2
    have hgrayB : GrayIs p.1 p.2 S := hgray2
    have hmemB : ∀ d ∈ rest, d ∈ p.2 := hmem2
    obtain ⟨Δ2, hΔ2e⟩ := hΔ2
    have hΔB : p.2 = o1 ++ Δ2 := hΔ2e
    have hval : (visitTopoDeps dag v o (dep :: rest)).1 = p := by
      rw [visitTopoDeps_unfold_cons, heq1]
      show (visitTopoDeps dag v1 o1 rest).1 = p
      rw [heq2]
    rw [hval]
    refine ⟨hinvB, hgrayB, ⟨Δ1 ++ Δ2, by rw [hΔB, hΔA, List.append_assoc]⟩, ?_⟩
    intro d hd
    rcases List.mem_cons.mp hd with hdd | hdr
    · subst hdd
      rw [hΔB]
      exact List.mem_append_left _ hdepA
    · exact hmemB d hdr

theorem topoVisitAll_spec (dag : Dag) (hacyc : ¬ HasCycle dag) (hclosed : DepsClosed dag) :
    ∀ (ks v o : List String),
      TopoInv dag v o → GrayIs v o [] → (∀ k ∈ ks, k ∈ dagIds dag) →
      TopoInv dag (topoVisitAll dag v o ks).1 (topoVisitAll dag v o ks).2 ∧
      GrayIs (topoVisitAll dag v o ks).1 (topoVisitAll dag v o ks).2 [] ∧
      (∃ Δ, (topoVisitAll dag v o ks).2 = o ++ Δ) ∧
      (∀ k ∈ ks, k ∈ (topoVisitAll dag v o ks).2) := by
  intro ks
  induction ks with
  | nil =>
    intro v o hinv hgray _
    exact ⟨hinv, hgray, ⟨[], by simp [topoVisitAll]⟩, by simp⟩
  | cons k ks ih =>
    intro v o hinv hgray hks
    have hspec := visitTopo_spec dag hacyc hclosed v o k []
      hinv hgray (by simp) (hks k (List.mem_cons_self k ks))
    obtain ⟨hinv1, hgray1, ⟨Δ1, hΔ1⟩, hk1⟩ := hspec
    have hstep : topoVisitAll dag v o (k :: ks)
        = topoVisitAll dag (visitTopo dag v o k).1.1 (visitTopo dag v o k).1.2 ks := rfl
    rw [hstep]
    obtain ⟨hinv2, hgray2, ⟨Δ2, hΔ2⟩, hmem2⟩ :=
      ih (visitTopo dag v o k).1.1 (visitTopo dag v o k).1.2 hinv1 hgray1
        (fun x hx => hks x (List.mem_cons_of_mem _ hx))
    refine ⟨hinv2, hgray2, ⟨Δ1 ++ Δ2, by rw [hΔ2, hΔ1, List.append_assoc]⟩, ?_⟩
    intro x hx
    rcases List.mem_cons.mp hx with hxk | hxs
    · subst hxk
      rw [hΔ2]
      exact List.mem_append_left _ hk1
    · exact hmem2 x hxs

/-- Every property of interest of the full `getTopologicalOrder` run on an
acyclic DAG with closed dependencies. -/
theorem getTopologicalOrder_spec (dag : Dag) (hacyc : ¬ HasCycle dag)
    (hclosed : DepsClosed dag) :
    (getTopologicalOrder dag).Nodup ∧
    (∀ x ∈ getTopologicalOrder dag, x ∈ dagIds dag) ∧
    (∀ k ∈ dagIds dag, k ∈ getTopologicalOrder dag) ∧
    SortedOrder dag (getTopologicalOrder dag) := by
  have hinv0 : TopoInv dag [] [] := by
    refine ⟨List.nodup_nil, by simp, by simp, ?_⟩
    intro pre x post h
    exact absurd h (by simp)
  have hgray0 : GrayIs [] [] [] := by
    intro g
    simp
  obtain ⟨hinv, _, _, hall⟩ :=
    topoVisitAll_spec dag hacyc hclosed (dagIds dag) [] [] hinv0 hgray0 (fun k hk => hk)
  obtain ⟨hnd, hin, hids, hsort⟩ := hinv
  exact ⟨hnd, hids, hall, hsort⟩

/-! ### From input job definitions to the built DAG -/

/-- Dependency edges read directly off the input job definitions (the
spec-level graph, before any map is built). -/
def jobEdge (jobs : List DagNode) (a b : String) : Prop :=
  ∃ n ∈ jobs, n.id = a ∧ b ∈ n.dependsOn

/-- The node inserted by the first loop of `buildDag`. -/
def toDagJob (n : DagNode) : DagJob :=
  ⟨n.id, n.name, n.dependsOn, Status.pending⟩

theorem insertJobs_eq_of_nodup {jobs : List DagNode}
    (h : (jobs.map DagNode.id).Nodup) :
    insertJobs jobs = jobs.map toDagJob := by
  unfold insertJobs
  have main : ∀ (l : List DagNode) (acc : Dag),
      (l.map DagNode.id).Nodup →
      (∀ n ∈ l, n.id ∉ dagIds acc) →
      l.foldl (fun dag n => mapSet dag ⟨n.id, n.name, n.dependsOn, Status.pending⟩) acc
        = acc ++ l.map toDagJob := by
    intro l
    induction l with
    | nil =>
      intro acc _ _
      simp
    | cons n rest ih =>
      intro acc hnd hdisj
      rw [List.foldl_cons]
      have hnotin : n.id ∉ dagIds acc := hdisj n (List.mem_cons_self n rest)
      have hany : ¬ (acc.any (fun j => j.id == n.id)) = true := by
        intro hc
        exact hnotin (dagAny_id_iff.mp hc)
      have hmap : mapSet acc ⟨n.id, n.name, n.dependsOn, Status.pending⟩
          = acc ++ [⟨n.id, n.name, n.dependsOn, Status.pending⟩] := by
        unfold mapSet
        rw [if_neg hany]
      have hnd2 : (n.id :: rest.map DagNode.id).Nodup := by simpa using hnd
      have hndr : (rest.map DagNode.id).Nodup := (List.nodup_cons.mp hnd2).2
      have hdisj2 : ∀ m ∈ rest,
          m.id ∉ dagIds (acc ++ [⟨n.id, n.name, n.dependsOn, Status.pending⟩]) := by
        intro m hm hmem
        have hids : dagIds (acc ++ [⟨n.id, n.name, n.dependsOn, Status.pending⟩])
            = dagIds acc ++ [n.id] := by
          simp [dagIds]
        rw [hids] at hmem
        rcases List.mem_append.mp hmem with hA | hB
        · exact hdisj m (List.mem_cons_of_mem _ hm) hA
        · rw [List.mem_singleton] at hB
          have hne : m.id ≠ n.id := by
            have := (List.nodup_cons.mp hnd2).1
            intro hc
            exact this (hc ▸ List.mem_map_of_mem DagNode.id hm)
          exact hne hB
      have hres := ih (acc ++ [(⟨n.id, n.name, n.dependsOn, Status.pending⟩ : DagJob)]) hndr hdisj2
      rw [hmap, hres]
      simp [toDagJob]
  have := main jobs [] h (by simp [dagIds])
  simpa using this

theorem dagIds_insertJobs_of_nodup {jobs : List DagNode}
    (h : (jobs.map DagNode.id).Nodup) :
    dagIds (insertJobs jobs) = jobs.map DagNode.id := by
  rw [insertJobs_eq_of_nodup h]
  simp [dagIds, toDagJob, List.map_map]

theorem edge_insertJobs_iff {jobs : List DagNode}
    (h : (jobs.map DagNode.id).Nodup) (a b : String) :
    edge (insertJobs jobs) a b ↔ jobEdge jobs a b := by
  rw [insertJobs_eq_of_nodup h]
  constructor
  · rintro ⟨job, hfind, hb⟩
    rcases List.mem_map.mp (dagFind_some_mem hfind) with ⟨n, hn, hnj⟩
    refine ⟨n, hn, ?_, ?_⟩
    · have := dagFind_some_id hfind
      rw [← hnj] at this
      exact this
    · rw [← hnj] at hb
      exact hb
  · rintro ⟨n, hn, hna, hb⟩
    have hnodup : NodupIds (jobs.map toDagJob) := by
      unfold NodupIds
      have : dagIds (jobs.map toDagJob) = jobs.map DagNode.id := by
        simp [dagIds, toDagJob, List.map_map]
      rw [this]
      exact h
    have hmem : toDagJob n ∈ jobs.map toDagJob := List.mem_map_of_mem toDagJob hn
    have hfind := dagFind_of_mem_nodup hnodup hmem
    have hid : (toDagJob n).id = a := hna
    rw [hid] at hfind
    exact ⟨toDagJob n, hfind, hb⟩

theorem hasCycle_insertJobs_iff {jobs : List DagNode}
    (h : (jobs.map DagNode.id).Nodup) :
    HasCycle (insertJobs jobs) ↔ ∃ x, Relation.TransGen (jobEdge jobs) x x := by
  unfold HasCycle
  constructor
  · rintro ⟨x, hx⟩
    exact ⟨x, Relation.TransGen.mono
      (fun a b hab => (edge_insertJobs_iff h a b).mp hab) hx⟩
  · rintro ⟨x, hx⟩
    exact ⟨x, Relation.TransGen.mono
      (fun a b hab => (edge_insertJobs_iff h a b).mpr hab) hx⟩

theorem depsClosed_map_of_id {f : DagJob → DagJob} (hid : ∀ j, (f j).id = j.id)
    (hdeps : ∀ j, (f j).dependsOn = j.dependsOn) (dag : Dag) (h : DepsClosed dag) :
    DepsClosed (dag.map f) := by
  intro job hmem d hd
  rcases List.mem_map.mp hmem with ⟨j0, hj0, hj0e⟩
  rw [← hj0e, hdeps j0] at hd
  rw [dagIds_map_of_id hid]
  exact h j0 hj0 d hd

theorem depsClosed_insertJobs {jobs : List DagNode}
    (h : (jobs.map DagNode.id).Nodup)
    (hc : ∀ n ∈ jobs, ∀ d ∈ n.dependsOn, d ∈ jobs.map DagNode.id) :
    DepsClosed (insertJobs jobs) := by
  intro job hmem d hd
  rw [insertJobs_eq_of_nodup h] at hmem
  rcases List.mem_map.mp hmem with ⟨n, hn, hnj⟩
  rw [dagIds_insertJobs_of_nodup h]
  refine hc n hn d ?_
  rw [← hnj] at hd
  exact hd

/-- C2: on job definitions with pairwise-distinct ids, (a) if every declared
dependency names a defined job and the dependency graph has no cycle, then
`buildDag` succeeds and `getTopologicalOrder` on the resulting DAG is a
permutation of all job ids in which every dependency of a job precedes it;
(b) if the dependency graph has a cycle, `buildDag` fails. -/
theorem claim_C2 (jobs : List DagNode) (hnd : (jobs.map DagNode.id).Nodup) :
    ((∀ n ∈ jobs, ∀ d ∈ n.dependsOn, d ∈ jobs.map DagNode.id) →
      ¬ (∃ x, Relation.TransGen (jobEdge jobs) x x) →
      ∃ dag0, buildDag jobs = Except.ok dag0 ∧
        (getTopologicalOrder dag0).Perm (jobs.map DagNode.id) ∧
        (∀ pre x post, getTopologicalOrder dag0 = pre ++ x :: post →
          ∀ n ∈ jobs, n.id = x → ∀ d ∈ n.dependsOn, d ∈ pre)) ∧
    ((∃ x, Relation.TransGen (jobEdge jobs) x x) →
      ∃ e, buildDag jobs = Except.error e) := by
  constructor
  · intro hclosedJ hacycJ
    have hc : DepsClosed (insertJobs jobs) := depsClosed_insertJobs hnd hclosedJ
    have hcy : ¬ HasCycle (insertJobs jobs) :=
      fun hcyc => hacycJ ((hasCycle_insertJobs_iff hnd).mp hcyc)
    have hval : validateDag (insertJobs jobs) = Except.ok () :=
      validateDag_ok_iff.mpr ⟨hc, hcy⟩
    refine ⟨(insertJobs jobs).map readyMark, buildDag_ok_iff.mpr ⟨hval, rfl⟩, ?_, ?_⟩
    all_goals
      have hc0 : DepsClosed ((insertJobs jobs).map readyMark) :=
        depsClosed_map_of_id readyMark_id readyMark_deps _ hc
      have hcy0 : ¬ HasCycle ((insertJobs jobs).map readyMark) :=
        fun hcyc => hcy ((hasCycle_map_of_id readyMark_id readyMark_deps _).mp hcyc)
      have hids0 : dagIds ((insertJobs jobs).map readyMark) = jobs.map DagNode.id := by
        rw [dagIds_map_of_id readyMark_id, dagIds_insertJobs_of_nodup hnd]
      obtain ⟨hndO, hOin, hinO, hsort⟩ :=
        getTopologicalOrder_spec ((insertJobs jobs).map readyMark) hcy0 hc0
    · refine (List.perm_ext_iff_of_nodup hndO hnd).mpr ?_
      intro a
      constructor
      · intro ha
        rw [← hids0]
        exact hOin a ha
      · intro ha
        refine hinO a ?_
        rw [hids0]
        exact ha
    · intro pre x post hsplit n hn hid d hd
      have hmem : toDagJob n ∈ insertJobs jobs := by
        rw [insertJobs_eq_of_nodup hnd]
        exact List.mem_map_of_mem toDagJob hn
      have hfind := dagFind_of_mem_nodup (insertJobs_nodup jobs) hmem
      have hdeq : depsOf ((insertJobs jobs).map readyMark) x = some n.dependsOn := by
        rw [depsOf_map_of_id readyMark_id readyMark_deps]
        unfold depsOf
        have hidn : (toDagJob n).id = x := hid
        rw [hidn] at hfind
        rw [hfind]
        rfl
      exact hsort pre x post hsplit n.dependsOn hdeq d hd
  · rintro ⟨x, hx⟩
    have hcyc : HasCycle (insertJobs jobs) := (hasCycle_insertJobs_iff hnd).mpr ⟨x, hx⟩
    rcases hv : validateDag (insertJobs jobs) with e | u
    · refine ⟨e, ?_⟩
      simp only [buildDag, hv]
    · cases u
      exact absurd (validateDag_ok_iff.mp hv).2 (fun h => h hcyc)

/-- Witness for C2 at a two-node acyclic graph and a one-node cyclic one. -/
theorem claim_C2_witness :
    (∃ dag0, buildDag [⟨"a", "a", []⟩, ⟨"b", "b", ["a"]⟩] = Except.ok dag0 ∧
        (getTopologicalOrder dag0).Perm
          ([(⟨"a", "a", []⟩ : DagNode), ⟨"b", "b", ["a"]⟩].map DagNode.id) ∧
        (∀ pre x post, getTopologicalOrder dag0 = pre ++ x :: post →
          ∀ n ∈ [(⟨"a", "a", []⟩ : DagNode), ⟨"b", "b", ["a"]⟩], n.id = x →
            ∀ d ∈ n.dependsOn, d ∈ pre)) ∧
    (∃ e, buildDag [(⟨"c", "c", ["c"]⟩ : DagNode)] = Except.error e) := by
  constructor
  · have hedge : ∀ a b : String,
        jobEdge [⟨"a", "a", []⟩, ⟨"b", "b", ["a"]⟩] a b → a = "b" ∧ b = "a" := by
      rintro a b ⟨n, hn, hid, hd⟩
      rcases List.mem_cons.mp hn with h1 | h1
      · subst h1
        simp at hd
      · rw [List.mem_singleton] at h1
        subst h1
        rw [List.mem_singleton] at hd
        exact ⟨hid.symm, hd⟩
    have hacyc : ¬ ∃ x,
        Relation.TransGen (jobEdge [⟨"a", "a", []⟩, ⟨"b", "b", ["a"]⟩]) x x := by
      rintro ⟨x, hx⟩
      rcases Relation.TransGen.head'_iff.mp hx with ⟨y, hxy, hyx⟩
      obtain ⟨hxb, hya⟩ := hedge x y hxy
      subst hxb
      subst hya
      rcases Relation.ReflTransGen.cases_head hyx with heq | ⟨z, haz, _⟩
      · exact (by decide : ("a" : String) ≠ "b") heq
      · exact (by decide : ("a" : String) ≠ "b") (hedge "a" z haz).1
    exact (claim_C2 [⟨"a", "a", []⟩, ⟨"b", "b", ["a"]⟩] (by decide)).1 (by decide) hacyc
  · have hcyc : ∃ x, Relation.TransGen (jobEdge [(⟨"c", "c", ["c"]⟩ : DagNode)]) x x :=
      ⟨"c", Relation.TransGen.single
        ⟨⟨"c", "c", ["c"]⟩, List.mem_singleton_self _, rfl, by simp⟩⟩
    exact (claim_C2 [(⟨"c", "c", ["c"]⟩ : DagNode)] (by decide)).2 hcyc

/-- C3 counterexample: on a DAG whose single job is `running`,
`cancelAllJobs` leaves it `running`, so it is false that every node in a
non-terminal status (`pending`, `ready` or `running`) ends `cancelled`. -/
theorem claim_C3_counterexample :
    ¬ (∀ (dag : Dag) (x : String) (s : Status),
        statusOf dag x = some s →
        (s = Status.pending ∨ s = Status.ready ∨ s = Status.running) →
        statusOf (cancelAllJobs dag) x = some Status.cancelled) := by
  intro h
  have := h [⟨"a", "a", [], Status.running⟩] "a" Status.running (by decide)
    (Or.inr (Or.inr rfl))
  exact absurd this (by decide)

/-- C3 (amended): `cancelAllJobs` rewrites exactly the `pending` and `ready`
statuses to `cancelled` and leaves every other status — `running` included —
unchanged; keys and presence of entries are untouched. -/
theorem claim_C3 (dag : Dag) (x : String) :
    statusOf (cancelAllJobs dag) x
      = (statusOf dag x).map
          (fun s => if s = Status.pending ∨ s = Status.ready then Status.cancelled else s) :=
  statusOf_cancelAllJobs dag x

/-! ### The agent's `executeJob` step loop -/

/-- A step of a job as the agent sees it (`JobStep` of `protocol.ts`,
restricted to the fields the step loop reads). -/
structure JobStep where
  id : Option String
  name : String
  command : String
  continueOnError : Bool
  deriving DecidableEq, Repr

/-- The status the agent writes into a `StepResult`. -/
inductive StepStatus
  | success
  | failure
  | skipped
  deriving DecidableEq, Repr

/-- A `StepResult` (the fields the loop computes; stdout/stderr/duration are
taken along unchanged from the command execution and are omitted). -/
structure StepResult where
  id : Option String
  name : String
  status : StepStatus
  exitCode : Int
  deriving DecidableEq, Repr

/-- The `for (const step of job.steps)` loop of `executeJob`.  `exec n` is
the exit code `executeCommand` would report for the step at offset `n` of
the remaining list (the environment oracle); `failed` is the loop variable
of the same name. -/
def runSteps (exec : Nat → Int) (failed : Bool) : List JobStep → List StepResult × Bool
  | [] => ([], failed)
  | step :: rest =>
    if failed && !step.continueOnError then
      let r := runSteps (fun n => exec (n + 1)) failed rest
      (⟨step.id, step.name, StepStatus.skipped, 0⟩ :: r.1, r.2)
    else
      let code := exec 0
      let success := code == 0
      let failed2 := failed || (!success && !step.continueOnError)
      let r := runSteps (fun n => exec (n + 1)) failed2 rest
      (⟨step.id, step.name, if success then StepStatus.success else StepStatus.failure,
          code⟩ :: r.1, r.2)

/-- Whether some step strictly before offset `k` fails without declaring
`continueOnError` (the specification-side formula the loop's `failed` flag
turns out to track). -/
def failedBy (exec : Nat → Int) (steps : List JobStep) (k : Nat) : Bool :=
  (List.range k).any (fun j =>
    match steps.get? j with
    | some st => !st.continueOnError && decide (exec j ≠ 0)
    | none => false)

theorem failedBy_zero (exec : Nat → Int) (steps : List JobStep) :
    failedBy exec steps 0 = false := rfl

theorem failedBy_succ (exec : Nat → Int) (step : JobStep) (rest : List JobStep) (k : Nat) :
    failedBy exec (step :: rest) (k + 1)
      = ((!step.continueOnError && decide (exec 0 ≠ 0))
          || failedBy (fun n => exec (n + 1)) rest k) := by
  unfold failedBy
  rw [List.range_succ_eq_map, List.any_cons, List.any_map]
  rfl

theorem runSteps_spec :
    ∀ (steps : List JobStep) (exec : Nat → Int) (f : Bool),
      ((runSteps exec f steps).1.length = steps.length) ∧
      ((runSteps exec f steps).2 = (f || failedBy exec steps steps.length)) ∧
      (∀ k st res, steps.get? k = some st →
        (runSteps exec f steps).1.get? k = some res →
        res.id = st.id ∧ res.name = st.name ∧
        res.status = (if (f || failedBy exec steps k) && !st.continueOnError
                      then StepStatus.skipped
                      else if exec k = 0 then StepStatus.success
                      else StepStatus.failure) ∧
        res.exitCode = (if (f || failedBy exec steps k) && !st.continueOnError
                        then 0 else exec k)) := by
  intro steps
  induction steps with
  | nil =>
    intro exec f
    refine ⟨rfl, by simp [runSteps, failedBy], ?_⟩
    intro k st res h _
    simp at h
  | cons step rest ih =>
    intro exec f
    have hbe : (exec 0 == 0) = decide (exec 0 = 0) := by
      by_cases h : exec 0 = 0 <;> simp [h]
    by_cases hc : (f && !step.continueOnError) = true
    · -- the step is skipped
      have hf : f = true := by
        revert hc
        cases f <;> simp
      have hcont : step.continueOnError = false := by
        revert hc
        cases step.continueOnError <;> simp
      have hrw : runSteps exec f (step :: rest)
          = (⟨step.id, step.name, StepStatus.skipped, 0⟩
              :: (runSteps (fun n => exec (n + 1)) f rest).1,
             (runSteps (fun n => exec (n + 1)) f rest).2) := by
        conv_lhs => rw [runSteps]
        rw [if_pos hc]
      obtain ⟨ihlen, ihflag, ihpt⟩ := ih (fun n => exec (n + 1)) f
      refine ⟨by rw [hrw]; simp [ihlen], ?_, ?_⟩
      · rw [hrw]
        simp only [List.length_cons]
        rw [ihflag, hf]
        simp
      intro k st res hst hres
      match k with
      | 0 =>
        rw [hrw] at hres
        simp at hres hst
        subst hres
        subst hst
        simp [failedBy_zero, hf, hcont]
      | k + 1 =>
        rw [hrw] at hres
        simp only [List.get?_cons_succ] at hres hst
        have := ihpt k st res hst hres
        refine ⟨this.1, this.2.1, ?_, ?_⟩
        · rw [this.2.2.1, hf]
          simp
        · rw [this.2.2.2, hf]
          simp
    · -- the step runs
      have hrw : runSteps exec f (step :: rest)
          = (⟨step.id, step.name,
                if exec 0 == 0 then StepStatus.success else StepStatus.failure, exec 0⟩
              :: (runSteps (fun n => exec (n + 1))
                    (f || (!(exec 0 == 0) && !step.continueOnError)) rest).1,
             (runSteps (fun n => exec (n + 1))
                (f || (!(exec 0 == 0) && !step.continueOnError)) rest).2) := by
        conv_lhs => rw [runSteps]
        rw [if_neg hc]
      have hff : ∀ k, ((f || (!(exec 0 == 0) && !step.continueOnError))
            || failedBy (fun n => exec (n + 1)) rest k)
          = (f || failedBy exec (step :: rest) (k + 1)) := by
        intro k
        rw [failedBy_succ, hbe]
        cases f <;> cases hcc : step.continueOnError <;> by_cases h0 : exec 0 = 0 <;>
          simp [h0]
      obtain ⟨ihlen, ihflag, ihpt⟩ :=
        ih (fun n => exec (n + 1)) (f || (!(exec 0 == 0) && !step.continueOnError))
      refine ⟨by rw [hrw]; simp [ihlen], ?_, ?_⟩
      · rw [hrw]
        simp only [List.length_cons]
        rw [ihflag, hff rest.length]
      · intro k st res hst hres
        match k with
        | 0 =>
          rw [hrw] at hres
          simp at hres hst
          subst hres
          subst hst
          have hcf : ((f || failedBy exec (step :: rest) 0) && !step.continueOnError)
              = false := by
            rw [failedBy_zero]
            simpa using hc
          rw [hcf]
          simp [hbe]
        | k + 1 =>
          rw [hrw] at hres
          simp only [List.get?_cons_succ] at hres hst
          have := ihpt k st res hst hres
          refine ⟨this.1, this.2.1, ?_, ?_⟩
          · rw [this.2.2.1, hff k]
          · rw [this.2.2.2, hff k]

/-- C4 counterexample: step 1 fails without `continueOnError`, yet step 2 —
which declares `continueOnError` — still runs (here: succeeds) instead of
being skipped, so later steps are not skipped regardless of their own flag. -/
theorem claim_C4_counterexample :
    ¬ (∀ (steps : List JobStep) (exec : Nat → Int) (j k : Nat)
        (stj : JobStep) (resj resk : StepResult), j < k →
        steps.get? j = some stj → stj.continueOnError = false →
        (runSteps exec false steps).1.get? j = some resj →
        resj.status = StepStatus.failure →
        (runSteps exec false steps).1.get? k = some resk →
        resk.status = StepStatus.skipped) := by
  intro h
  have := h [⟨none, "s1", "c1", false⟩, ⟨none, "s2", "c2", true⟩]
    (fun n => if n = 0 then 1 else 0) 0 1
    ⟨none, "s1", "c1", false⟩ ⟨none, "s1", StepStatus.failure, 1⟩
    ⟨none, "s2", StepStatus.success, 0⟩
    (by decide) (by decide) (by decide) (by decide) (by decide) (by decide)
  exact absurd this (by decide)

/-- C4 (amended): `runSteps` returns one result per step, in declared order
with ids and names preserved; a step is `skipped` exactly when some earlier
step failed without declaring `continueOnError` AND the step itself does not
declare `continueOnError`; every other step runs and is `success`/`failure`
by its exit code; the job fails iff some run step failed without
`continueOnError`. -/
theorem claim_C4 (steps : List JobStep) (exec : Nat → Int) :
    ((runSteps exec false steps).1.length = steps.length) ∧
    ((runSteps exec false steps).2 = failedBy exec steps steps.length) ∧
    (∀ k st res, steps.get? k = some st →
      (runSteps exec false steps).1.get? k = some res →
      res.id = st.id ∧ res.name = st.name ∧
      res.status = (if failedBy exec steps k && !st.continueOnError
                    then StepStatus.skipped
                    else if exec k = 0 then StepStatus.success
                    else StepStatus.failure)) := by
  obtain ⟨hlen, hflag, hpt⟩ := runSteps_spec steps exec false
  refine ⟨hlen, by simpa using hflag, ?_⟩
  intro k st res hst hres
  obtain ⟨h1, h2, h3, _⟩ := hpt k st res hst hres
  refine ⟨h1, h2, ?_⟩
  rw [h3]
  simp

/-- Witness for C4: in the two-step counterexample job, the second step's
result exists and its status follows the amended formula (it runs and
succeeds, because it declares `continueOnError`). -/
theorem claim_C4_witness :
    ((runSteps (fun n => if n = 0 then (1 : Int) else 0) false
        [⟨none, "s1", "c1", false⟩, ⟨none, "s2", "c2", true⟩]).1.get? 1
      = some ⟨none, "s2", StepStatus.success, 0⟩) ∧
    (⟨none, "s2", StepStatus.success, 0⟩ : StepResult).status
      = (if failedBy (fun n => if n = 0 then (1 : Int) else 0)
            [⟨none, "s1", "c1", false⟩, ⟨none, "s2", "c2", true⟩] 1
            && !(⟨none, "s2", "c2", true⟩ : JobStep).continueOnError
         then StepStatus.skipped
         else if (if 1 = 0 then (1 : Int) else 0) = 0 then StepStatus.success
         else StepStatus.failure) := by
  refine ⟨by decide, ?_⟩
  exact ((claim_C4 [⟨none, "s1", "c1", false⟩, ⟨none, "s2", "c2", true⟩]
      (fun n => if n = 0 then (1 : Int) else 0)).2.2 1 ⟨none, "s2", "c2", true⟩
      ⟨none, "s2", StepStatus.success, 0⟩ (by decide) (by decide)).2.2

/-! ### GitHub webhook trigger matching -/

/-- Strings handled character by character. -/
abbrev Str := List Char

/-- The fields of a commit object that `getChangedFiles` reads. -/
structure Commit where
  added : List Str
  modified : List Str
  removed : List Str
  deriving DecidableEq, Repr

/-- The fields of the normalised webhook payload that `matchesTrigger`
reads; optional fields are `Option` (JS `undefined`). -/
structure Payload where
  eventType : Str
  action : Option Str
  ref : Option Str
  refType : Option Str
  commits : Option (List Commit)
  deriving DecidableEq, Repr

/-- A trigger rule as `matchesTrigger` receives it. -/
structure Trigger where
  type : Str
  branches : Option (List Str)
  branchesIgnore : Option (List Str)
  paths : Option (List Str)
  pathsIgnore : Option (List Str)
  prEvents : Option (List Str)
  deriving DecidableEq, Repr

/-- Glob matching as compiled by `matchesGlob` into an anchored regex:
`*` matches any sequence, `?` any single character, everything else is
literal (the other regex metacharacters are escaped first). -/
def globMatch : List Char → List Char → Bool
  | [], [] => true
  | [], _ :: _ => false
  | '*' :: ps, t =>
    globMatch ps t ||
      (match t with
       | [] => false
       | _ :: ts => globMatch ('*' :: ps) ts)
  | '?' :: _, [] => false
  | '?' :: ps, _ :: ts => globMatch ps ts
  | _ :: _, [] => false
  | c :: ps, x :: ts => c == x && globMatch ps ts
termination_by p t => (t.length, p.length)
decreasing_by
  · apply Prod.Lex.right
    simp
  · apply Prod.Lex.left
    simp
  · apply Prod.Lex.left
    simp
  · apply Prod.Lex.left
    simp

/-- `matchesGlob(text, pattern)`. -/
def matchesGlob (text pattern : Str) : Bool :=
  globMatch pattern text

/-- `extractBranchFromRef`: strip a leading `refs/heads/`, else `null`. -/
def extractBranchFromRef (ref : Str) : Option Str :=
  let refsHeads : Str := "refs/heads/".toList
  if refsHeads.isPrefixOf ref then some (ref.drop refsHeads.length) else none

/-- Insertion into the `Set` of changed files (a JS `Set` keeps first
insertion order). -/
def insertUnique (acc : List Str) (x : Str) : List Str :=
  if x ∈ acc then acc else acc ++ [x]

/-- `getChangedFiles`: the union of added, modified and removed files of
all commits, deduplicated in first-seen order. -/
def getChangedFiles (p : Payload) : List Str :=
  match p.commits with
  | none => []
  | some cs =>
    cs.foldl (fun acc c => ((c.added ++ c.modified) ++ c.removed).foldl insertUnique acc) []

/-- JS truthiness of an optional string (`undefined` and `""` are falsy). -/
def refTruthy (o : Option Str) : Bool :=
  match o with
  | some r => !r.isEmpty
  | none => false

/-- The `return false` conditions of the branch-filter block of
`matchesTrigger` (only reached for a push event with a truthy ref). -/
def pushBranchReject (p : Payload) (t : Trigger) : Bool :=
  if p.eventType == "push".toList && refTruthy p.ref then
    match p.ref with
    | some r =>
      match extractBranchFromRef r with
      | some branch =>
        !branch.isEmpty &&
          ((match t.branchesIgnore with
            | some pats => pats.any (fun pat => matchesGlob branch pat)
            | none => false) ||
           (match t.branches with
            | some pats => !(pats.any (fun pat => matchesGlob branch pat))
            | none => false))
      | none => false
    | none => false
  else false

/-- The `return false` conditions of the path-filter block of
`matchesTrigger`. -/
def pushPathReject (p : Payload) (t : Trigger) : Bool :=
  if p.eventType == "push".toList && refTruthy p.ref then
    if t.paths.isSome || t.pathsIgnore.isSome then
      (match t.pathsIgnore with
       | some pats =>
         pats.any (fun pat => (getChangedFiles p).any (fun f => matchesGlob f pat))
       | none => false) ||
      (match t.paths with
       | some pats =>
         !(pats.any (fun pat => (getChangedFiles p).any (fun f => matchesGlob f pat)))
       | none => false)
    else false
  else false

/-- The `return false` condition of the pull-request block of
`matchesTrigger` (default events: opened, synchronize, reopened). -/
def prReject (p : Payload) (t : Trigger) : Bool :=
  if p.eventType == "pull_request".toList && refTruthy p.action then
    match p.action with
    | some a =>
      let evs := match t.prEvents with
        | some e => e
        | none => ["opened".toList, "synchronize".toList, "reopened".toList]
      !(evs.contains a)
    | none => false
  else false

/-- The `return false` condition of the tag block of `matchesTrigger`. -/
def tagReject (p : Payload) (t : Trigger) : Bool :=
  if t.type == "tag".toList then
    !(p.eventType == "create".toList) || decide (p.refType ≠ some ("tag".toList))
  else false

/-- `matchesTrigger`: the early-return chain of the source, in order. -/
def matchesTrigger (p : Payload) (t : Trigger) : Bool :=
  if t.type == "push".toList && !(p.eventType == "push".toList) then false
  else if t.type == "pull_request".toList && !(p.eventType == "pull_request".toList) then false
  else if t.type == "tag".toList && !(p.eventType == "create".toList) then false
  else if pushBranchReject p t then false
  else if pushPathReject p t then false
  else if prReject p t then false
  else if tagReject p t then false
  else true

theorem matchesTrigger_true_iff (p : Payload) (t : Trigger) :
    matchesTrigger p t = true ↔
      ((t.type == "push".toList && !(p.eventType == "push".toList)) = false ∧
       (t.type == "pull_request".toList && !(p.eventType == "pull_request".toList)) = false ∧
       (t.type == "tag".toList && !(p.eventType == "create".toList)) = false ∧
       pushBranchReject p t = false ∧
       pushPathReject p t = false ∧
       prReject p t = false ∧
       tagReject p t = false) := by
  unfold matchesTrigger
  rcases h1 : (t.type == "push".toList && !(p.eventType == "push".toList)) <;>
    rcases h2 : (t.type == "pull_request".toList && !(p.eventType == "pull_request".toList)) <;>
    rcases h3 : (t.type == "tag".toList && !(p.eventType == "create".toList)) <;>
    rcases h4 : pushBranchReject p t <;>
    rcases h5 : pushPathReject p t <;>
    rcases h6 : prReject p t <;>
    rcases h7 : tagReject p t <;>
    simp

/-- C5 counterexample: a trigger of type `schedule` (no filters) matches a
plain push payload, so it is false that a rule matches only when its type
matches the event's kind (with schedule/manual rules matching no event). -/
theorem claim_C5_counterexample :
    ¬ (∀ (p : Payload) (t : Trigger), matchesTrigger p t = true →
        (t.type = "push".toList ∧ p.eventType = "push".toList) ∨
        (t.type = "pull_request".toList ∧ p.eventType = "pull_request".toList) ∨
        (t.type = "tag".toList ∧ p.eventType = "create".toList ∧
          p.refType = some ("tag".toList))) := by
  intro h
  have := h ⟨"push".toList, none, some ("refs/heads/main".toList), none, none⟩
    ⟨"schedule".toList, none, none, none, none, none⟩ (by decide)
  rcases this with ⟨h1, _⟩ | ⟨h1, _⟩ | ⟨h1, _, _⟩ <;> exact absurd h1 (by decide)

/-- C5 (amended): whenever `matchesTrigger` accepts, the type gates that do
exist hold (push rule ⇒ push event, pull_request rule ⇒ pull_request event,
tag rule ⇒ create event of a tag ref — schedule/manual rules are NOT gated),
and each positive filter succeeds in its scope: `branches` for a push event
whose ref yields a nonempty branch, `paths` for a push event with a truthy
ref, `prEvents` for a pull_request event with a truthy action. -/
theorem claim_C5 (p : Payload) (t : Trigger) (h : matchesTrigger p t = true) :
    ((t.type = "push".toList → p.eventType = "push".toList) ∧
     (t.type = "pull_request".toList → p.eventType = "pull_request".toList) ∧
     (t.type = "tag".toList →
        p.eventType = "create".toList ∧ p.refType = some ("tag".toList))) ∧
    (∀ pats r branch, t.branches = some pats → p.eventType = "push".toList →
      p.ref = some r → extractBranchFromRef r = some branch → branch ≠ [] →
      pats.any (fun pat => matchesGlob branch pat) = true) ∧
    (∀ pats, t.paths = some pats → p.eventType = "push".toList →
      refTruthy p.ref = true →
      pats.any (fun pat => (getChangedFiles p).any (fun f => matchesGlob f pat)) = true) ∧
    (∀ evs a, t.prEvents = some evs → p.eventType = "pull_request".toList →
      p.action = some a → a ≠ [] → evs.contains a = true) := by
  obtain ⟨e1, e2, e3, e4, e5, e6, e7⟩ := (matchesTrigger_true_iff p t).mp h
  refine ⟨⟨?_, ?_, ?_⟩, ?_, ?_, ?_⟩
  · intro ht
    rw [ht] at e1
    simpa using e1
  · intro ht
    rw [ht] at e2
    simpa using e2
  · intro ht
    unfold tagReject at e7
    rw [ht] at e7
    simpa using e7
  · intro pats r branch hbr hpush href hext hbrne
    have hrne : r.isEmpty = false := by
      rcases hbb : r.isEmpty
      · rfl
      · rw [List.isEmpty_iff.mp hbb] at hext
        rw [(by decide : extractBranchFromRef ([] : Str) = none)] at hext
        cases hext
    have hbi : branch.isEmpty = false := by
      rcases hbb : branch.isEmpty
      · rfl
      · exact absurd (List.isEmpty_iff.mp hbb) hbrne
    unfold pushBranchReject at e4
    rw [hpush, href] at e4
    simp only [refTruthy, hrne] at e4
    rw [hext] at e4
    rw [hbr] at e4
    simp [hbi] at e4
    simpa using e4.2
  · intro pats hpa hpush hrt
    unfold pushPathReject at e5
    rw [hpush, hrt, hpa] at e5
    simp at e5
    simpa using e5.2
  · intro evs a hevs hpr hact hane
    have hae : a.isEmpty = false := by
      rcases hbb : a.isEmpty
      · rfl
      · exact absurd (List.isEmpty_iff.mp hbb) hane
    unfold prReject at e6
    rw [hpr, hact, hevs] at e6
    simp only [refTruthy, hae] at e6
    simpa using e6

/-- Witness for C5: a pull_request trigger with an explicit `prEvents`
filter accepts a matching payload, and the filter indeed contains the
payload's action. -/
theorem claim_C5_witness :
    matchesTrigger ⟨"pull_request".toList, some ("opened".toList), none, none, none⟩
        ⟨"pull_request".toList, none, none, none, none, some ["opened".toList]⟩ = true ∧
      ([("opened".toList)].contains ("opened".toList)) = true := by
  refine ⟨by decide, ?_⟩
  exact (claim_C5 ⟨"pull_request".toList, some ("opened".toList), none, none, none⟩
      ⟨"pull_request".toList, none, none, none, none, some ["opened".toList]⟩
      (by decide)).2.2.2 ["opened".toList] ("opened".toList) rfl rfl rfl (by decide)

/-! ### The log store: `appendLog` and `getLogsForJob` -/

/-- A row of the `logs` table (id is the AUTOINCREMENT primary key). -/
structure LogRow where
  id : Nat
  jobId : String
  stepId : Option String
  stream : String
  content : String
  deriving DecidableEq, Repr

/-- The `logs` table together with its AUTOINCREMENT counter: the next
inserted row receives id `seq + 1`. -/
structure LogStore where
  rows : List LogRow
  seq : Nat
  deriving DecidableEq, Repr

/-- `appendLog`: INSERT one row (id assigned by AUTOINCREMENT); the method
is declared `void`, so the caller receives `()`. -/
def appendLog (s : LogStore) (jobId : String) (stepId : Option String)
    (stream content : String) : LogStore × Unit :=
  ({ rows := s.rows ++ [⟨s.seq + 1, jobId, stepId, stream, content⟩],
     seq := s.seq + 1 }, ())

/-- `getLogsForJob`: rows of the job, optionally filtered by step and by
`id > since` (a `stepId` of `""` and a `since` of `0` are falsy in JS and
disable their filter), ordered by id. -/
def getLogsForJob (s : LogStore) (jobId : String) (stepId : Option String)
    (since : Option Nat) : List LogRow :=
  let stepActive : Bool := match stepId with
    | some st => st != ""
    | none => false
  let sinceActive : Bool := match since with
    | some n => n != 0
    | none => false
  (s.rows.filter (fun row =>
      row.jobId == jobId &&
      (!stepActive || row.stepId == stepId) &&
      (!sinceActive || decide (since.getD 0 < row.id)))).mergeSort
    (fun a b => a.id ≤ b.id)

/-- C6 counterexample: `appendLog` returns `void`, so no reading of its
return value can recover the assigned sequence number (it would have to be
both 1 and 2 on two stores with different counters). -/
theorem claim_C6_counterexample :
    ¬ ∃ g : Unit → Nat, ∀ (s : LogStore) (jobId : String) (stepId : Option String)
        (stream content : String),
        g (appendLog s jobId stepId stream content).2 = s.seq + 1 := by
  rintro ⟨g, hg⟩
  have h0 := hg ⟨[], 0⟩ "j" none "stdout" "c"
  have h1 := hg ⟨[], 1⟩ "j" none "stdout" "c"
  simp [appendLog] at h0 h1
  omega

/-- C6 (amended): `appendLog` assigns the appended chunk the next sequence
number but returns `()`; the assigned sequence is observable only from the
store, e.g. querying the updated store for the job's rows newer than the old
counter returns exactly the new chunk, carrying id `seq + 1`. -/
theorem claim_C6 (s : LogStore) (jobId : String) (stepId : Option String)
    (stream content : String)
    (hwf : ∀ row ∈ s.rows, 1 ≤ row.id ∧ row.id ≤ s.seq) :
    (appendLog s jobId stepId stream content).2 = () ∧
    getLogsForJob (appendLog s jobId stepId stream content).1 jobId none (some s.seq)
      = [⟨s.seq + 1, jobId, stepId, stream, content⟩] := by
  obtain ⟨rows, seq⟩ := s
  simp only at hwf
  refine ⟨rfl, ?_⟩
  rcases seq with _ | n
  · -- counter 0: the since filter is inactive, but the store is empty
    have hempty : rows = [] := by
      cases hr : rows with
      | nil => rfl
      | cons a l =>
        have := hwf a (by rw [hr]; exact List.mem_cons_self a l)
        omega
    subst hempty
    simp [appendLog, getLogsForJob]
  · -- counter n+1: old rows all have id ≤ since and are filtered out
    have hold : ∀ row ∈ rows, row.id ≤ n + 1 := fun row hr => (hwf row hr).2
    simp [appendLog, getLogsForJob, List.filter_append]
    have hnilf : List.filter
        (fun row => row.jobId == jobId && decide (n + 1 < row.id)) rows = [] := by
      rw [List.filter_eq_nil]
      intro row hrow
      simp only [Bool.and_eq_true, decide_eq_true_eq, not_and]
      intro _
      have := hold row hrow
      omega
    rw [hnilf]
    simp

/-- Witness for C6 on the empty store. -/
theorem claim_C6_witness :
    (∀ row ∈ ([] : List LogRow), 1 ≤ row.id ∧ row.id ≤ 0) ∧
    ((appendLog ⟨[], 0⟩ "job1" none "stdout" "hello").2 = () ∧
     getLogsForJob (appendLog ⟨[], 0⟩ "job1" none "stdout" "hello").1 "job1" none (some 0)
       = [⟨1, "job1", none, "stdout", "hello"⟩]) :=
  ⟨by simp, claim_C6 ⟨[], 0⟩ "job1" none "stdout" "hello" (by simp)⟩

/-! ### VM network allocation (`allocateNetwork` of the TAP helper) -/

/-- An IPv4 address as its four octets; the first two are the base /16
(`baseSubnet`, default `172.16`). -/
abbrev Ip4 := Nat × Nat × Nat × Nat

/-- The fields of `VmNetworkConfig` that the slot computation determines. -/
structure VmNetworkConfig where
  hostIp : Ip4
  guestIp : Ip4
  gateway : Ip4
  deriving DecidableEq, Repr

/-- `allocateNetwork`: slot `index` gets third octet `⌊index/64⌋` and fourth
octets `(index mod 64)*4 + 1` (host = gateway) and `+ 2` (guest). -/
def allocateNetwork (b1 b2 index : Nat) : VmNetworkConfig :=
  let thirdOctet := index / 64
  let fourthOctetBase := (index % 64) * 4
  { hostIp := (b1, b2, thirdOctet, fourthOctetBase + 1),
    guestIp := (b1, b2, thirdOctet, fourthOctetBase + 2),
    gateway := (b1, b2, thirdOctet, fourthOctetBase + 1) }

/-- An address as the 32-bit number it denotes. -/
def ipNum (ip : Ip4) : Nat :=
  ((ip.1 * 256 + ip.2.1) * 256 + ip.2.2.1) * 256 + ip.2.2.2

/-- C7: for every slot `k < 16384`, the allocator yields host = base + 4k + 1
and guest = base + 4k + 2 inside the base /16 (all octets valid), the host
and guest share their /30 block (they differ only in the low two bits), and
distinct slots get disjoint /30 blocks. -/
theorem claim_C7 (b1 b2 k : Nat) (hk : k < 16384) :
    (ipNum (allocateNetwork b1 b2 k).hostIp = ipNum (b1, b2, 0, 0) + 4 * k + 1) ∧
    (ipNum (allocateNetwork b1 b2 k).guestIp = ipNum (b1, b2, 0, 0) + 4 * k + 2) ∧
    ((allocateNetwork b1 b2 k).gateway = (allocateNetwork b1 b2 k).hostIp) ∧
    ((allocateNetwork b1 b2 k).hostIp.2.2.1 ≤ 255 ∧
     (allocateNetwork b1 b2 k).hostIp.2.2.2 ≤ 255 ∧
     (allocateNetwork b1 b2 k).guestIp.2.2.2 ≤ 255) ∧
    (ipNum (allocateNetwork b1 b2 k).hostIp / 4
      = ipNum (allocateNetwork b1 b2 k).guestIp / 4) ∧
    (∀ k2, k2 < 16384 → k2 ≠ k →
      ipNum (allocateNetwork b1 b2 k2).hostIp / 4
        ≠ ipNum (allocateNetwork b1 b2 k).hostIp / 4) := by
  refine ⟨?_, ?_, rfl, ⟨?_, ?_, ?_⟩, ?_, ?_⟩
  · simp only [allocateNetwork, ipNum]
    omega
  · simp only [allocateNetwork, ipNum]
    omega
  · simp only [allocateNetwork]
    omega
  · simp only [allocateNetwork]
    omega
  · simp only [allocateNetwork]
    omega
  · simp only [allocateNetwork, ipNum]
    omega
  · intro k2 hk2 hne
    simp only [allocateNetwork, ipNum]
    omega

/-- Witness for C7 at base 172.16, slot 5. -/
theorem claim_C7_witness :
    (5 < 16384) ∧
    ((ipNum (allocateNetwork 172 16 5).hostIp = ipNum (172, 16, 0, 0) + 4 * 5 + 1) ∧
     (ipNum (allocateNetwork 172 16 5).guestIp = ipNum (172, 16, 0, 0) + 4 * 5 + 2) ∧
     ((allocateNetwork 172 16 5).gateway = (allocateNetwork 172 16 5).hostIp) ∧
     ((allocateNetwork 172 16 5).hostIp.2.2.1 ≤ 255 ∧
      (allocateNetwork 172 16 5).hostIp.2.2.2 ≤ 255 ∧
      (allocateNetwork 172 16 5).guestIp.2.2.2 ≤ 255) ∧
     (ipNum (allocateNetwork 172 16 5).hostIp / 4
       = ipNum (allocateNetwork 172 16 5).guestIp / 4) ∧
     (∀ k2, k2 < 16384 → k2 ≠ 5 →
       ipNum (allocateNetwork 172 16 k2).hostIp / 4
         ≠ ipNum (allocateNetwork 172 16 5).hostIp / 4)) :=
  ⟨by decide, claim_C7 172 16 5 (by decide)⟩

/-! ### The agent's `executeCommand` timeout handling -/

/-- The fields of an `execute` request the exit-code logic reads. -/
structure ExecuteRequest where
  id : String
  command : String
  args : List String
  timeout : Option Nat
  deriving DecidableEq, Repr

/-- What the spawned process did (environment oracle): its own exit code,
and whether the timeout timer fired — setting `killed` — before it exited. -/
structure ProcOutcome where
  exitCode : Int
  timedOut : Bool
  deriving DecidableEq, Repr

/-- The response fields the claim concerns. -/
structure ExecuteResponse where
  id : String
  exitCode : Int
  deriving DecidableEq, Repr

/-- The spawn argv: `[command, ...args]` when args are given, else
`sh -c command`. -/
def spawnArgv (req : ExecuteRequest) : List String :=
  if req.args.length > 0 then req.command :: req.args else ["sh", "-c", req.command]

/-- `if (timeout)`: the timer is armed only for a truthy timeout (an absent
or zero timeout arms nothing). -/
def timeoutArmed (req : ExecuteRequest) : Bool :=
  match req.timeout with
  | some t => t != 0
  | none => false

/-- `executeCommand`: `killed` is set iff the armed timer fired; the
response carries `killed ? 124 : exitCode`. -/
def executeCommand (req : ExecuteRequest) (proc : ProcOutcome) : ExecuteResponse :=
  let killed := timeoutArmed req && proc.timedOut
  { id := req.id, exitCode := if killed then 124 else proc.exitCode }

/-- C8: if a request's timeout is armed and it elapses before the process
exits (the process is killed), the response's exit code is 124; otherwise
the response carries the process's actual exit code. -/
theorem claim_C8 (req : ExecuteRequest) (proc : ProcOutcome) :
    (timeoutArmed req = true → proc.timedOut = true →
      (executeCommand req proc).exitCode = 124) ∧
    ((timeoutArmed req = false ∨ proc.timedOut = false) →
      (executeCommand req proc).exitCode = proc.exitCode) := by
  constructor
  · intro h1 h2
    simp [executeCommand, h1, h2]
  · intro h
    rcases h with h | h <;> simp [executeCommand, h]

/-- Witness for C8: a timed-out one-second request reports 124; a request
without a timeout reports the process's exit code. -/
theorem claim_C8_witness :
    ((executeCommand ⟨"r1", "sleep", [], some 1⟩ ⟨137, true⟩).exitCode = 124) ∧
    ((executeCommand ⟨"r2", "true", [], none⟩ ⟨7, false⟩).exitCode = 7) :=
  ⟨(claim_C8 ⟨"r1", "sleep", [], some 1⟩ ⟨137, true⟩).1 rfl rfl,
   (claim_C8 ⟨"r2", "true", [], none⟩ ⟨7, false⟩).2 (Or.inl rfl)⟩

/-! ### GitHub webhook signature verification -/

/-- The value of a hex digit (Node accepts both cases). -/
def hexVal (c : Char) : Option Nat :=
  if '0' ≤ c ∧ c ≤ '9' then some (c.toNat - '0'.toNat)
  else if 'a' ≤ c ∧ c ≤ 'f' then some (c.toNat - 'a'.toNat + 10)
  else if 'A' ≤ c ∧ c ≤ 'F' then some (c.toNat - 'A'.toNat + 10)
  else none

/-- `Buffer.from(s, "hex")`: decode hex pairs, silently stopping at the
first invalid pair or lone trailing character (Node truncates rather than
throwing). -/
def hexDecodePairs : List Char → List Nat
  | c1 :: c2 :: rest =>
    match hexVal c1, hexVal c2 with
    | some h, some l => (16 * h + l) :: hexDecodePairs rest
    | _, _ => []
  | _ => []

/-- `verifyGitHubSignature(payload, signature, secret)`; `hmacHex secret
payload` is the hex HMAC-SHA256 digest oracle.  `timingSafeEqual` throws on
length mismatch — caught, returning false — and otherwise compares bytes. -/
def verifyGitHubSignature (hmacHex : Str → Str → Str) (payload : Str)
    (signature : Option Str) (secret : Str) : Bool :=
  match signature with
  | none => false
  | some sig =>
    if sig.isEmpty then false
    else if !((sig.splitOn '=').headD [] == "sha256".toList)
        || (((sig.splitOn '=').drop 1).headD []).isEmpty then false
    else if (hexDecodePairs (((sig.splitOn '=').drop 1).headD [])).length
        != (hexDecodePairs (hmacHex secret payload)).length then false
    else hexDecodePairs (((sig.splitOn '=').drop 1).headD [])
        == hexDecodePairs (hmacHex secret payload)

/-- A well-formed GitHub signature header: `sha256=` followed by exactly 64
hex digits (the claim's notion of a non-malformed signature). -/
def wellFormedSig (s : Str) : Bool :=
  ("sha256=".toList).isPrefixOf s &&
    (s.drop 7).length == 64 &&
    (s.drop 7).all (fun c => (hexVal c).isSome)

/-- C9 counterexample: with an HMAC digest of 64 `'0'`s, the malformed
signature `sha256=<64 zeros>zz` (66 hex chars, two of them invalid) still
verifies, because `Buffer.from(-, "hex")` truncates at the first invalid
pair; so the verifier does not return false on all malformed signatures. -/
theorem claim_C9_counterexample :
    ¬ (∀ (hmacHex : Str → Str → Str) (payload secret sig : Str),
        wellFormedSig sig = false →
        verifyGitHubSignature hmacHex payload (some sig) secret = false) := by
  intro h
  have := h (fun _ _ => List.replicate 64 '0') [] []
    ("sha256=".toList ++ (List.replicate 64 '0' ++ ['z', 'z'])) (by decide)
  exact absurd this (by decide)

/-- C9 (amended): the verifier never throws and returns false for a null
signature; a present signature verifies iff it is nonempty, its part before
the first `=` is `sha256`, the part after is nonempty, and that part decodes
— under Node's truncating hex decoding — to exactly the expected digest's
bytes (equal length included).  Because decoding truncates at the first
invalid pair, this accepts some malformed hex strings. -/
theorem claim_C9 (hmacHex : Str → Str → Str) (payload secret sig : Str) :
    (verifyGitHubSignature hmacHex payload none secret = false) ∧
    (verifyGitHubSignature hmacHex payload (some sig) secret = true ↔
      (sig ≠ [] ∧ (sig.splitOn '=').headD [] = "sha256".toList ∧
       ((sig.splitOn '=').drop 1).headD [] ≠ [] ∧
       hexDecodePairs (((sig.splitOn '=').drop 1).headD [])
         = hexDecodePairs (hmacHex secret payload))) := by
  refine ⟨rfl, ?_⟩
  have hred : verifyGitHubSignature hmacHex payload (some sig) secret
      = (if sig.isEmpty then false
         else if !((sig.splitOn '=').headD [] == "sha256".toList)
             || (((sig.splitOn '=').drop 1).headD []).isEmpty then false
         else if (hexDecodePairs (((sig.splitOn '=').drop 1).headD [])).length
             != (hexDecodePairs (hmacHex secret payload)).length then false
         else hexDecodePairs (((sig.splitOn '=').drop 1).headD [])
             == hexDecodePairs (hmacHex secret payload)) := rfl
  rw [hred]
  by_cases hsig : sig.isEmpty = true
  · rw [if_pos hsig]
    simp [List.isEmpty_iff.mp hsig]
  · rw [if_neg hsig]
    have hne : sig ≠ [] := fun h => hsig (by simp [h])
    by_cases halg : (!((sig.splitOn '=').headD [] == "sha256".toList)
        || (((sig.splitOn '=').drop 1).headD []).isEmpty) = true
    · rw [if_pos halg]
      simp only [Bool.or_eq_true, Bool.not_eq_true', beq_eq_false_iff_ne,
        List.isEmpty_iff] at halg
      constructor
      · intro hfalse
        cases hfalse
      · rintro ⟨_, h2, h3, _⟩
        rcases halg with h | h
        · exact absurd h2 h
        · exact absurd h h3
    · rw [if_neg halg]
      simp only [Bool.or_eq_true, Bool.not_eq_true', beq_eq_false_iff_ne,
        List.isEmpty_iff, not_or, not_not] at halg
      obtain ⟨halg1, halg2⟩ := halg
      by_cases hlen : ((hexDecodePairs (((sig.splitOn '=').drop 1).headD [])).length
          != (hexDecodePairs (hmacHex secret payload)).length) = true
      · rw [if_pos hlen]
        simp only [bne_iff_ne, ne_eq] at hlen
        constructor
        · intro hfalse
          cases hfalse
        · rintro ⟨_, _, _, h4⟩
          exact absurd (congrArg List.length h4) hlen
      · rw [if_neg hlen]
        simp only [beq_iff_eq]
        constructor
        · intro h4
          exact ⟨hne, halg1, halg2, h4⟩
        · rintro ⟨_, _, _, h4⟩
          exact h4

/-! ### Masking secrets in log output -/

/-- `SecretValue` of the secrets store. -/
structure SecretValue where
  name : Str
  value : Str
  deriving DecidableEq, Repr

/-- `String.prototype.replaceAll(p, r)`: scan left to right, replacing each
non-overlapping occurrence of `p` and continuing after it.  (The source only
calls this with `p.length > 3`, so the empty-pattern branch is dead code;
it returns the text unchanged here.) -/
def replaceAll (p r : Str) (t : Str) : Str :=
  if hp : p.isEmpty then t
  else
    match t with
    | [] => []
    | c :: rest =>
      if hpre : p.isPrefixOf (c :: rest) then r ++ replaceAll p r ((c :: rest).drop p.length)
      else c :: replaceAll p r rest
termination_by t.length
decreasing_by
  · have hp2 : p ≠ [] := by
      intro h
      rw [h] at hp
      exact hp rfl
    have hle : p.length ≤ (c :: rest).length := (List.isPrefixOf_iff_prefix.mp hpre).length_le
    have hpos : 0 < p.length := List.length_pos.mpr hp2
    rw [List.length_drop]
    simp at hle ⊢
    omega
  · simp

/-- The loop body of `maskSecrets`. -/
def maskStep (masked : Str) (secret : SecretValue) : Str :=
  if secret.value.length > 3 then replaceAll secret.value ("***".toList) masked
  else masked

/-- `maskSecrets(text, secrets)`. -/
def maskSecrets (text : Str) (secrets : List SecretValue) : Str :=
  secrets.foldl maskStep text

theorem replaceAll_unfold_empty {p r t : Str} (hp : p.isEmpty = true) :
    replaceAll p r t = t := by
  rw [replaceAll.eq_def, dif_pos hp]

theorem replaceAll_unfold_nil {p r : Str} (hp : ¬ p.isEmpty = true) :
    replaceAll p r [] = [] := by
  rw [replaceAll.eq_def, dif_neg hp]

theorem replaceAll_unfold_pos {p r : Str} {c : Char} {rest : Str} (hp : ¬ p.isEmpty = true)
    (hpre : p.isPrefixOf (c :: rest) = true) :
    replaceAll p r (c :: rest) = r ++ replaceAll p r ((c :: rest).drop p.length) := by
  rw [replaceAll.eq_def, dif_neg hp]
  simp only [dif_pos hpre]

theorem replaceAll_unfold_cons {p r : Str} {c : Char} {rest : Str} (hp : ¬ p.isEmpty = true)
    (hpre : ¬ p.isPrefixOf (c :: rest) = true) :
    replaceAll p r (c :: rest) = c :: replaceAll p r rest := by
  rw [replaceAll.eq_def, dif_neg hp]
  simp only [dif_neg hpre]

/-- A star-free nonempty infix of all-star `rr ++ X` lies inside `X`. -/
theorem infix_allstar_append {q rr X : Str} (hq : '*' ∉ q) (hqne : q ≠ [])
    (hr : ∀ c ∈ rr, c = '*') (h : q <:+: rr ++ X) : q <:+: X := by
  induction rr with
  | nil => simpa using h
  | cons c rr ih =>
    rw [List.cons_append, List.infix_cons_iff] at h
    rcases h with hpre | hinf
    · rcases List.prefix_cons_iff.mp hpre with hq0 | ⟨t2, hqeq, _⟩
      · exact absurd hq0 hqne
      · exfalso
        have hc : c = '*' := hr c (List.mem_cons_self c rr)
        apply hq
        rw [hqeq, hc]
        exact List.mem_cons_self _ _
    · exact ih (fun x hx => hr x (List.mem_cons_of_mem _ hx)) hinf

/-- A star-free prefix of `replaceAll p r t` (with `r` nonempty, all stars)
is a prefix of `t`. -/
theorem starFree_prefix_replaceAll :
    ∀ (p r t : Str), r ≠ [] → (∀ c ∈ r, c = '*') →
      ∀ q : Str, '*' ∉ q → q <+: replaceAll p r t → q <+: t := by
  intro p r
  refine replaceAll.induct p r
    (fun t => r ≠ [] → (∀ c ∈ r, c = '*') →
      ∀ q : Str, '*' ∉ q → q <+: replaceAll p r t → q <+: t) ?_ ?_ ?_ ?_
  · intro t hp _ _ q _ h
    rwa [replaceAll_unfold_empty hp] at h
  · intro hp _ _ q _ h
    rwa [replaceAll_unfold_nil hp] at h
  · intro hp c rest hpre ih hrne hr q hq h
    rw [replaceAll_unfold_pos hp hpre] at h
    rcases q with _ | ⟨qc, qrest⟩
    · exact List.nil_prefix
    · rcases r with _ | ⟨rc, rrest⟩
      · exact absurd rfl hrne
      · rw [List.cons_append] at h
        obtain ⟨hqc, _⟩ := List.cons_prefix_iff.mp h
        exfalso
        apply hq
        rw [hqc, hr rc (List.mem_cons_self rc rrest)]
        exact List.mem_cons_self _ _
  · intro hp c rest hpre ih hrne hr q hq h
    rw [replaceAll_unfold_cons hp hpre] at h
    rcases List.prefix_cons_iff.mp h with hq0 | ⟨t2, hqeq, ht2⟩
    · rw [hq0]
      exact List.nil_prefix
    · have ht2r : t2 <+: rest := by
        refine ih hrne hr t2 ?_ ht2
        intro hmem
        apply hq
        rw [hqeq]
        exact List.mem_cons_of_mem _ hmem
      rw [hqeq]
      exact List.cons_prefix_iff.mpr ⟨rfl, ht2r⟩

/-- A star-free nonempty infix of `replaceAll p r t` (with `r` nonempty,
all stars) is an infix of `t`: masking never creates new star-free
occurrences. -/
theorem starFree_infix_replaceAll :
    ∀ (p r t : Str), r ≠ [] → (∀ c ∈ r, c = '*') →
      ∀ q : Str, '*' ∉ q → q ≠ [] → q <:+: replaceAll p r t → q <:+: t := by
  intro p r
  refine replaceAll.induct p r
    (fun t => r ≠ [] → (∀ c ∈ r, c = '*') →
      ∀ q : Str, '*' ∉ q → q ≠ [] → q <:+: replaceAll p r t → q <:+: t) ?_ ?_ ?_ ?_
  · intro t hp _ _ q _ _ h
    rwa [replaceAll_unfold_empty hp] at h
  · intro hp _ _ q _ _ h
    rwa [replaceAll_unfold_nil hp] at h
  · intro hp c rest hpre ih hrne hr q hq hqne h
    rw [replaceAll_unfold_pos hp hpre] at h
    have hX := infix_allstar_append hq hqne hr h
    have := ih hrne hr q hq hqne hX
    exact this.trans (List.drop_suffix _ _).isInfix
  · intro hp c rest hpre ih hrne hr q hq hqne h
    rw [replaceAll_unfold_cons hp hpre] at h
    rcases List.infix_cons_iff.mp h with hpref | hinf
    · rcases List.prefix_cons_iff.mp hpref with hq0 | ⟨t2, hqeq, ht2⟩
      · exact absurd hq0 hqne
      · have ht2r : t2 <+: rest := by
          refine starFree_prefix_replaceAll p r rest hrne hr t2 ?_ ht2
          intro hmem
          apply hq
          rw [hqeq]
          exact List.mem_cons_of_mem _ hmem
        have : q <+: c :: rest := by
          rw [hqeq]
          exact List.cons_prefix_iff.mpr ⟨rfl, ht2r⟩
        exact this.isInfix
    · exact List.infix_cons (ih hrne hr q hq hqne hinf)

/-- `replaceAll` leaves no occurrence of its own star-free pattern. -/
theorem replaceAll_self_not_infix :
    ∀ (p r t : Str), p ≠ [] → '*' ∉ p → r ≠ [] → (∀ c ∈ r, c = '*') →
      ¬ p <:+: replaceAll p r t := by
  intro p r
  refine replaceAll.induct p r
    (fun t => p ≠ [] → '*' ∉ p → r ≠ [] → (∀ c ∈ r, c = '*') →
      ¬ p <:+: replaceAll p r t) ?_ ?_ ?_ ?_
  · intro t hp hpne _ _ _ _
    exact absurd (List.isEmpty_iff.mp hp) hpne
  · intro hp hpne _ _ _ h
    rw [replaceAll_unfold_nil hp] at h
    exact hpne (List.eq_nil_of_infix_nil h)
  · intro hp c rest hpre ih hpne hpstar hrne hr h
    rw [replaceAll_unfold_pos hp hpre] at h
    exact ih hpne hpstar hrne hr (infix_allstar_append hpstar hpne hr h)
  · intro hp c rest hpre ih hpne hpstar hrne hr h
    rw [replaceAll_unfold_cons hp hpre] at h
    rcases List.infix_cons_iff.mp h with hpref | hinf
    · rcases List.prefix_cons_iff.mp hpref with hq0 | ⟨t2, hqeq, ht2⟩
      · exact hpne hq0
      · have ht2r : t2 <+: rest := by
          refine starFree_prefix_replaceAll p r rest hrne hr t2 ?_ ht2
          intro hmem
          apply hpstar
          rw [hqeq]
          exact List.mem_cons_of_mem _ hmem
        apply hpre
        rw [List.isPrefixOf_iff_prefix, hqeq]
        exact List.cons_prefix_iff.mpr ⟨rfl, ht2r⟩
    · exact ih hpne hpstar hrne hr hinf

/-- Absence of a star-free nonempty string is preserved by the whole
masking fold. -/
theorem maskFold_preserves_absent :
    ∀ (l : List SecretValue) (acc q : Str), '*' ∉ q → q ≠ [] →
      ¬ q <:+: acc → ¬ q <:+: l.foldl maskStep acc := by
  intro l
  induction l with
  | nil => intro acc q _ _ h; exact h
  | cons s l ih =>
    intro acc q hq hqne habs
    rw [List.foldl_cons]
    refine ih (maskStep acc s) q hq hqne ?_
    unfold maskStep
    by_cases hlen : s.value.length > 3
    · rw [if_pos hlen]
      intro hc
      exact habs (starFree_infix_replaceAll s.value ("***".toList) acc (by decide)
        (by decide) q hq hqne hc)
    · rw [if_neg hlen]
      exact habs

theorem maskFold_all_short :
    ∀ (l : List SecretValue) (acc : Str), (∀ s ∈ l, s.value.length ≤ 3) →
      l.foldl maskStep acc = acc := by
  intro l
  induction l with
  | nil =>
    intro acc _
    rfl
  | cons a l ih =>
    intro acc hshort
    rw [List.foldl_cons]
    have hstep : maskStep acc a = acc := by
      unfold maskStep
      rw [if_neg (by have := hshort a (List.mem_cons_self a l); omega)]
    rw [hstep]
    exact ih acc (fun s hs => hshort s (List.mem_cons_of_mem _ hs))

theorem maskFold_long_absent :
    ∀ (l : List SecretValue) (acc : Str) (s : SecretValue), s ∈ l →
      3 < s.value.length → '*' ∉ s.value →
      ¬ s.value <:+: l.foldl maskStep acc := by
  intro l
  induction l with
  | nil =>
    intro acc s hs
    exact absurd hs (List.not_mem_nil s)
  | cons a l ih =>
    intro acc s hs hlen hstar
    rw [List.foldl_cons]
    have hvne : s.value ≠ [] := by
      intro h
      rw [h] at hlen
      simp at hlen
    rcases List.mem_cons.mp hs with hsa | hsl
    · subst hsa
      refine maskFold_preserves_absent l (maskStep acc s) s.value hstar hvne ?_
      unfold maskStep
      rw [if_pos hlen]
      exact replaceAll_self_not_infix s.value ("***".toList) acc hvne hstar
        (by decide) (by decide)
    · exact ih (maskStep acc a) s hsl hlen hstar

/-- C10 counterexample: with secrets `ef***gh` (long), `abcd` (long) and
`ab` (short) applied in order to the text `efabcdgh`, masking `abcd` CREATES
the long secret `ef***gh` in the output, and the short secret `ab` that
occurred in the input no longer appears; both halves of the claim fail. -/
theorem claim_C10_counterexample :
    ¬ (∀ (text : Str) (secrets : List SecretValue),
        (∀ s ∈ secrets, 3 < s.value.length → ¬ s.value <:+: maskSecrets text secrets) ∧
        (∀ s ∈ secrets, s.value.length ≤ 3 → s.value <:+: text →
          s.value <:+: maskSecrets text secrets)) := by
  intro h
  obtain ⟨h1, _⟩ := h ['e','f','a','b','c','d','g','h']
    [⟨['a'], ['e','f','*','*','*','g','h']⟩, ⟨['b'], ['a','b','c','d']⟩, ⟨['c'], ['a','b']⟩]
  have hmask : maskSecrets ['e','f','a','b','c','d','g','h']
      [⟨['a'], ['e','f','*','*','*','g','h']⟩, ⟨['b'], ['a','b','c','d']⟩, ⟨['c'], ['a','b']⟩]
      = ['e','f','*','*','*','g','h'] := by
    simp [maskSecrets, maskStep, replaceAll]
  have hviol := h1 ⟨['a'], ['e','f','*','*','*','g','h']⟩ (by simp) (by decide)
  rw [hmask] at hviol
  exact hviol List.infix_rfl

/-- C10 (amended): if every secret is short (≤ 3 characters) the text is
returned unchanged (so short secrets are never masked); and every long
secret whose value contains no `'*'` is absent from the output — its own
occurrences are replaced and later replacements (which insert only stars)
cannot recreate it.  (Short secrets present in the input may still be
destroyed by overlapping long-secret replacements, and long secrets
containing `'*'` may be created by them — see the counterexample.) -/
theorem claim_C10 (text : Str) (secrets : List SecretValue) :
    ((∀ s ∈ secrets, s.value.length ≤ 3) → maskSecrets text secrets = text) ∧
    (∀ s ∈ secrets, 3 < s.value.length → '*' ∉ s.value →
      ¬ s.value <:+: maskSecrets text secrets) := by
  constructor
  · intro hshort
    exact maskFold_all_short secrets text hshort
  · intro s hs hlen hstar
    exact maskFold_long_absent secrets text s hs hlen hstar

/-- Witness for C10: the secret `abcd` is removed from `xabcde`, and a
store of only short secrets leaves `xy` unchanged. -/
theorem claim_C10_witness :
    (¬ (['a','b','c','d'] : Str) <:+:
        maskSecrets ['x','a','b','c','d','e'] [⟨['k'], ['a','b','c','d']⟩]) ∧
    maskSecrets ['x','y'] [⟨['k'], ['a','b']⟩] = ['x','y'] :=
  ⟨(claim_C10 ['x','a','b','c','d','e'] [⟨['k'], ['a','b','c','d']⟩]).2
      ⟨['k'], ['a','b','c','d']⟩ (List.mem_cons_self _ _) (by decide) (by decide),
   (claim_C10 ['x','y'] [⟨['k'], ['a','b']⟩]).1
      (by intro s hs; rw [List.mem_singleton] at hs; rw [hs]; decide)⟩

end Zephyr
